import Mathlib

/-!
# MuSig2 key aggregation and signing session: a shallow embedding

The embedded sources are `src/modules/keyagg2.h`, `keyagg_impl2.h`, `session2.h`
and `session_impl2.h`.

Conventions of the embedding.

* The libsecp256k1 internals (`group.h`, `scalar.h`, `hash.h`, `ecmult_const.h`) are
  not part of the sources.  Their types and functions are taken as a parameter, the
  `Backend`, together with the group of curve points `Pt` (any additive commutative
  group).  `secp256k1_gej` values are identified with the point they denote.
* `secp256k1_scalar` is a natural number, every scalar operation reduces modulo
  `Backend.order`.
* `secp256k1_sha256` is the list of bytes absorbed so far; finalising applies
  `Backend.sha256` to it.
* A C `int` is an `Int`, a `size_t` a `Nat` (no size computed here can wrap:
  the largest is `15 * 2 + 1`).
* A pointer argument that the code tests against `NULL` is an `Option`
  (`none` is `NULL`, `some v` points to memory holding `v`).  A function returns
  the C return value together with the final contents of what it may write.
* A caller's array is a `List`; reading past its end is undefined in C and makes
  the embedded function return `none`.  The array is an object of its own, apart from
  the struct the function writes.
* `musig2_session_init` clears `*session` before it reads `*keyagg` and `msg32`, so its
  two input pointers are modelled with their target: an object apart from `*session`,
  or the member of `*session` of the same type (`&session->keyagg`, `session->msg32`).
* The three memoised tagged-hash midstates and their flags are the explicit
  state `musig2_globals`.
* `VERIFY_CHECK` compiles to nothing outside of the library's test builds and is
  recorded as a comment only.
-/

namespace MuSig2

/-! ## External collaborators -/

/-- Affine group element of libsecp256k1 (`group.h`): two field elements and the
infinity flag. -/
structure secp256k1_ge (Fe : Type) where
  x : Fe
  y : Fe
  infinity : Int
deriving DecidableEq, Repr

/-- What the sources use of libsecp256k1, over a field-element type `Fe` and a type
of curve points `Pt`. -/
structure Backend (Fe Pt : Type) where
  /-- the group order, modulus of `secp256k1_scalar` -/
  order : Nat
  /-- the digest computed by initialize / write / finalize of `hash.h` -/
  sha256 : List Nat → List Nat
  /-- the all-zero-bytes field element left by `memset(.., 0, ..)` -/
  fe_zero : Fe
  /-- `secp256k1_fe_normalize` -/
  fe_normalize : Fe → Fe
  /-- `secp256k1_fe_get_b32`: the 32 bytes written -/
  fe_get_b32 : Fe → List Nat
  /-- `secp256k1_gej_set_ge`: the point an affine element denotes -/
  gej_set_ge : secp256k1_ge Fe → Pt
  /-- `secp256k1_ge_set_gej`: the affine element computed for a point -/
  ge_set_gej : Pt → secp256k1_ge Fe

/-- The contract of the library functions that the proofs rely on. -/
structure Backend.Lawful {Fe Pt : Type} [AddCommGroup Pt] (B : Backend Fe Pt) : Prop where
  sha256_length : ∀ m, (B.sha256 m).length = 32
  fe_get_b32_length : ∀ x, (B.fe_get_b32 x).length = 32
  gej_set_ge_set_gej : ∀ P, B.gej_set_ge (B.ge_set_gej P) = P
  gej_set_ge_infinity : ∀ a : secp256k1_ge Fe, a.infinity ≠ 0 → B.gej_set_ge a = 0
  ge_set_gej_infinity : ∀ P, (B.ge_set_gej P).infinity ≠ 0 ↔ P = 0

section Defs

variable {Fe Pt : Type} [AddCommGroup Pt]

/-- Streaming hash state of `hash.h`: the bytes absorbed so far. -/
abbrev secp256k1_sha256 := List Nat

/-- Model of `secp256k1_sha256_initialize`. -/
def secp256k1_sha256_initialize : secp256k1_sha256 := []

/-- Model of `secp256k1_sha256_write(hash, data, size)`: absorbs the first `size` bytes. -/
def secp256k1_sha256_write (hash : secp256k1_sha256) (data : List Nat) (size : Nat) :
    secp256k1_sha256 :=
  hash ++ data.take size

/-- Model of `secp256k1_sha256_finalize(hash, out32)`: the 32 bytes written to `out32`. -/
def secp256k1_sha256_finalize (B : Backend Fe Pt) (hash : secp256k1_sha256) : List Nat :=
  B.sha256 hash

/-- Big-endian value of a byte string. -/
def be_value (bytes : List Nat) : Nat :=
  bytes.foldl (fun acc b => acc * 256 + b) 0

/-- Model of `secp256k1_scalar_set_b32(r, b32, NULL)`: the 32 bytes read big-endian and
reduced modulo the group order. -/
def secp256k1_scalar_set_b32 (B : Backend Fe Pt) (b32 : List Nat) : Nat :=
  be_value (b32.take 32) % B.order

/-- Model of `secp256k1_scalar_add`. -/
def secp256k1_scalar_add (B : Backend Fe Pt) (a b : Nat) : Nat := (a + b) % B.order

/-- Model of `secp256k1_scalar_mul`. -/
def secp256k1_scalar_mul (B : Backend Fe Pt) (a b : Nat) : Nat := (a * b) % B.order

/-- Model of `secp256k1_scalar_clear`: the scalar is zero afterwards. -/
def secp256k1_scalar_clear : Nat := 0

/-- Model of `secp256k1_gej_set_infinity`. -/
def secp256k1_gej_set_infinity : Pt := 0

/-- Model of `secp256k1_gej_add_var(r, a, b, NULL)`. -/
def secp256k1_gej_add_var (a b : Pt) : Pt := a + b

/-- Model of `secp256k1_gej_add_ge_var(r, a, b, NULL)`, `b` affine. -/
def secp256k1_gej_add_ge_var (B : Backend Fe Pt) (a : Pt) (b : secp256k1_ge Fe) : Pt :=
  a + B.gej_set_ge b

/-- Model of `secp256k1_ecmult_const(r, a, q)`: `r = q * a`. -/
def secp256k1_ecmult_const (B : Backend Fe Pt) (a : secp256k1_ge Fe) (q : Nat) : Pt :=
  q • B.gej_set_ge a

/-- Model of `secp256k1_ge_is_infinity`: the flag of the element. -/
def secp256k1_ge_is_infinity (a : secp256k1_ge Fe) : Int := a.infinity

/-- A `secp256k1_ge` all of whose bytes are zero. -/
def ge_zeroed (B : Backend Fe Pt) : secp256k1_ge Fe :=
  { x := B.fe_zero, y := B.fe_zero, infinity := 0 }

/-! ## keyagg2.h -/

/-- `#define MUSIG2_MAX_SIGNERS 16` -/
def MUSIG2_MAX_SIGNERS : Nat := 16

/-- `musig2_keyagg_cache` of keyagg2.h; `a` is the array `a[MUSIG2_MAX_SIGNERS]`. -/
structure musig2_keyagg_cache (Fe : Type) where
  X_tilde : secp256k1_ge Fe
  a : List Nat
  n_signers : Nat
  is_initialized : Int
deriving DecidableEq, Repr

/-! ## keyagg_impl2.h -/

/-- `MUSIG2_TAG_AGG[] = "MuSig2/agg"`, the terminating NUL included. -/
def MUSIG2_TAG_AGG : List Nat := [77, 117, 83, 105, 103, 50, 47, 97, 103, 103, 0]

/-- The file-scope statics of keyagg_impl2.h and session_impl2.h. -/
structure musig2_globals where
  musig2_tagged_hash_agg_init_state : secp256k1_sha256
  musig2_tagged_hash_agg_state_inited : Int
  musig2_tagged_hash_nonce_init : secp256k1_sha256
  musig2_tagged_nonce_inited : Int
  musig2_tagged_hash_sig_init : secp256k1_sha256
  musig2_tagged_sig_inited : Int
deriving DecidableEq, Repr

/-- The statics at program start: the flags are `0`, the three hash states hold
no meaningful value. -/
def musig2_globals_start : musig2_globals :=
  { musig2_tagged_hash_agg_init_state := []
    musig2_tagged_hash_agg_state_inited := 0
    musig2_tagged_hash_nonce_init := []
    musig2_tagged_nonce_inited := 0
    musig2_tagged_hash_sig_init := []
    musig2_tagged_sig_inited := 0 }

/-- `musig2_init_agg_tagged_hash` (keyagg_impl2.h:21). -/
def musig2_init_agg_tagged_hash (B : Backend Fe Pt) (g : musig2_globals) : musig2_globals :=
  if g.musig2_tagged_hash_agg_state_inited ≠ 0 then
    g
  else
    let sha := secp256k1_sha256_initialize
    let sha := secp256k1_sha256_write sha MUSIG2_TAG_AGG (MUSIG2_TAG_AGG.length - 1)
    let taghash := secp256k1_sha256_finalize B sha
    let st := secp256k1_sha256_initialize
    let st := secp256k1_sha256_write st taghash 32
    let st := secp256k1_sha256_write st taghash 32
    { g with
      musig2_tagged_hash_agg_init_state := st
      musig2_tagged_hash_agg_state_inited := 1 }

/-- The loop `for (i = 0; i < n_pubkeys; i++)` of `musig2_hash_agg`
(keyagg_impl2.h:68), entered at index `i` with `k` iterations left. -/
def musig2_hash_agg_loop (B : Backend Fe Pt) (pubkeys : List (secp256k1_ge Fe)) :
    Nat → Nat → secp256k1_sha256 → Option secp256k1_sha256
  | 0, _, sha => some sha
  | k + 1, i, sha =>
    match pubkeys[i]? with
    | none => none
    | some P =>
      let fe_x := P.x
      let fe_x := B.fe_normalize fe_x
      let buf := B.fe_get_b32 fe_x
      musig2_hash_agg_loop B pubkeys k (i + 1) (secp256k1_sha256_write sha buf 32)

/-- `musig2_hash_agg` (keyagg_impl2.h:48).  The four `VERIFY_CHECK`s (non-null
pointers, `0 < n_pubkeys <= MUSIG2_MAX_SIGNERS`) generate no code. -/
def musig2_hash_agg (B : Backend Fe Pt) (g : musig2_globals)
    (pubkeys : List (secp256k1_ge Fe)) (n_pubkeys : Nat) (Xi : secp256k1_ge Fe) :
    Option (musig2_globals × Nat) :=
  let g := musig2_init_agg_tagged_hash B g
  let sha := g.musig2_tagged_hash_agg_init_state
  match musig2_hash_agg_loop B pubkeys n_pubkeys 0 sha with
  | none => none
  | some sha =>
    let fe_x := Xi.x
    let fe_x := B.fe_normalize fe_x
    let buf := B.fe_get_b32 fe_x
    let sha := secp256k1_sha256_write sha buf 32
    let buf := secp256k1_sha256_finalize B sha
    some (g, secp256k1_scalar_set_b32 B buf)

/-- `musig2_keyagg_coef` (keyagg_impl2.h:89).  Returns the statics, the C return
value and the contents of `*a_i_out`. -/
def musig2_keyagg_coef (B : Backend Fe Pt) (g : musig2_globals)
    (pubkeys : Option (List (secp256k1_ge Fe))) (n_pubkeys index : Nat)
    (a_i_out : Option Nat) : Option (musig2_globals × Int × Option Nat) :=
  match pubkeys, a_i_out with
  | none, _ => some (g, 0, a_i_out)
  | _, none => some (g, 0, a_i_out)
  | some pubkeys, some _ =>
    if n_pubkeys = 0 ∨ n_pubkeys > MUSIG2_MAX_SIGNERS then
      some (g, 0, a_i_out)
    else if index ≥ n_pubkeys then
      some (g, 0, a_i_out)
    else
      match pubkeys[index]? with
      | none => none
      | some Xi =>
        match musig2_hash_agg B g pubkeys n_pubkeys Xi with
        | none => none
        | some (g, out) => some (g, 1, some out)

/-- The loop `for (i = 0; i < n_pubkeys; i++)` of `musig2_keyagg`
(keyagg_impl2.h:140), entered at index `i` with `k` iterations left; the state is
the statics, the cache and the accumulator `Xj`. -/
def musig2_keyagg_loop (B : Backend Fe Pt) (pubkeys : List (secp256k1_ge Fe))
    (n_pubkeys : Nat) :
    Nat → Nat → musig2_globals × musig2_keyagg_cache Fe × Pt →
      Option (musig2_globals × musig2_keyagg_cache Fe × Pt)
  | 0, _, st => some st
  | k + 1, i, (g, cache, Xj) =>
    match pubkeys[i]? with
    | none => none
    | some Pi =>
      match musig2_hash_agg B g pubkeys n_pubkeys Pi with
      | none => none
      | some (g, ai) =>
        let cache := { cache with a := cache.a.set i ai }
        let tmpj := secp256k1_ecmult_const B Pi ai
        let Xj := secp256k1_gej_add_var Xj tmpj
        musig2_keyagg_loop B pubkeys n_pubkeys k (i + 1) (g, cache, Xj)

/-- `musig2_keyagg` (keyagg_impl2.h:119).  Returns the statics, the C return value
and the contents of `*cache` and of `*X_tilde_out`. -/
def musig2_keyagg (B : Backend Fe Pt) (g : musig2_globals)
    (pubkeys : Option (List (secp256k1_ge Fe))) (n_pubkeys : Nat)
    (cache : Option (musig2_keyagg_cache Fe)) (X_tilde_out : Option (secp256k1_ge Fe)) :
    Option (musig2_globals × Int × Option (musig2_keyagg_cache Fe) ×
      Option (secp256k1_ge Fe)) :=
  match pubkeys, cache with
  | none, _ => some (g, 0, cache, X_tilde_out)
  | _, none => some (g, 0, cache, X_tilde_out)
  | some pubkeys, some _ =>
    if n_pubkeys = 0 ∨ n_pubkeys > MUSIG2_MAX_SIGNERS then
      some (g, 0, cache, X_tilde_out)
    else
      -- memset(cache, 0, sizeof(*cache))
      let cache : musig2_keyagg_cache Fe :=
        { X_tilde := ge_zeroed B
          a := List.replicate MUSIG2_MAX_SIGNERS 0
          n_signers := 0
          is_initialized := 0 }
      let cache := { cache with n_signers := n_pubkeys }
      let Xj : Pt := secp256k1_gej_set_infinity
      match musig2_keyagg_loop B pubkeys n_pubkeys n_pubkeys 0 (g, cache, Xj) with
      | none => none
      | some (g, cache, Xj) =>
        let cache := { cache with X_tilde := B.ge_set_gej Xj }
        let cache := { cache with is_initialized := 1 }
        match X_tilde_out with
        | some _ => some (g, 1, some cache, some cache.X_tilde)
        | none => some (g, 1, some cache, none)

/-! ## session2.h -/

/-- `#define MUSIG2_NONCE_COUNT 2` -/
def MUSIG2_NONCE_COUNT : Nat := 2

/-- A C array `T v[MUSIG2_NONCE_COUNT]` inside a struct: exactly two cells. -/
structure nonce_array (α : Type) where
  e0 : α
  e1 : α
deriving DecidableEq, Repr

/-- Reads `v[i]` for `i < MUSIG2_NONCE_COUNT`. -/
def nonce_array.get {α : Type} (v : nonce_array α) (i : Nat) : α :=
  if i = 0 then v.e0 else v.e1

/-- Writes `v[i] = x` for `i < MUSIG2_NONCE_COUNT`. -/
def nonce_array.set {α : Type} (v : nonce_array α) (i : Nat) (x : α) : nonce_array α :=
  if i = 0 then { v with e0 := x } else { v with e1 := x }

/-- `musig2_nonce_state` of session2.h. -/
structure musig2_nonce_state where
  r : nonce_array Nat
  has_secret : Int
deriving DecidableEq, Repr

/-- `musig2_nonce_agg_state` of session2.h. -/
structure musig2_nonce_agg_state (Fe : Type) where
  R_agg : nonce_array (secp256k1_ge Fe)
  R_eff : secp256k1_ge Fe
  has_agg : Int
  has_eff : Int
deriving DecidableEq, Repr

/-- `musig2_session` of session2.h. -/
structure musig2_session (Fe : Type) where
  keyagg : musig2_keyagg_cache Fe
  X_tilde : secp256k1_ge Fe
  msg32 : List Nat
  b : Nat
  c : Nat
  signer_index : Nat
  has_b : Int
  has_c : Int
  is_initialized : Int
deriving DecidableEq, Repr

/-! ## session_impl2.h -/

/-- `MUSIG2_TAG_NONCE[] = "MuSig2/noncecoef"`, the terminating NUL included. -/
def MUSIG2_TAG_NONCE : List Nat :=
  [77, 117, 83, 105, 103, 50, 47, 110, 111, 110, 99, 101, 99, 111, 101, 102, 0]

/-- `MUSIG2_TAG_SIG[] = "BIP0340/challenge"`, the terminating NUL included. -/
def MUSIG2_TAG_SIG : List Nat :=
  [66, 73, 80, 48, 51, 52, 48, 47, 99, 104, 97, 108, 108, 101, 110, 103, 101, 0]

/-- `musig2_init_tagged_hash` (session_impl2.h:22), on the values behind
`init_state` and `flag`. -/
def musig2_init_tagged_hash (B : Backend Fe Pt) (init_state : secp256k1_sha256) (flag : Int)
    (tag : List Nat) (taglen : Nat) : secp256k1_sha256 × Int :=
  if flag ≠ 0 then
    (init_state, flag)
  else
    let sha := secp256k1_sha256_initialize
    let sha := secp256k1_sha256_write sha tag taglen
    let taghash := secp256k1_sha256_finalize B sha
    let st := secp256k1_sha256_initialize
    let st := secp256k1_sha256_write st taghash 32
    let st := secp256k1_sha256_write st taghash 32
    (st, 1)

/-- `musig2_init_nonce_tagged_hash` (session_impl2.h:44). -/
def musig2_init_nonce_tagged_hash (B : Backend Fe Pt) (g : musig2_globals) : musig2_globals :=
  let r := musig2_init_tagged_hash B g.musig2_tagged_hash_nonce_init
    g.musig2_tagged_nonce_inited MUSIG2_TAG_NONCE (MUSIG2_TAG_NONCE.length - 1)
  { g with musig2_tagged_hash_nonce_init := r.1, musig2_tagged_nonce_inited := r.2 }

/-- `musig2_init_sig_tagged_hash` (session_impl2.h:54). -/
def musig2_init_sig_tagged_hash (B : Backend Fe Pt) (g : musig2_globals) : musig2_globals :=
  let r := musig2_init_tagged_hash B g.musig2_tagged_hash_sig_init
    g.musig2_tagged_sig_inited MUSIG2_TAG_SIG (MUSIG2_TAG_SIG.length - 1)
  { g with musig2_tagged_hash_sig_init := r.1, musig2_tagged_sig_inited := r.2 }

/-- Where the argument `keyagg` of `musig2_session_init` points: to an object apart from
`*session`, or to the member `session->keyagg`. -/
inductive keyagg_arg (Fe : Type) where
  | object (cache : musig2_keyagg_cache Fe) : keyagg_arg Fe
  | of_session : keyagg_arg Fe
deriving DecidableEq, Repr

/-- What `*keyagg` holds while `*session` holds `s`. -/
def keyagg_arg.read : keyagg_arg Fe → musig2_session Fe → musig2_keyagg_cache Fe
  | keyagg_arg.object cache, _ => cache
  | keyagg_arg.of_session, s => s.keyagg

/-- Where the argument `msg32` of `musig2_session_init` points: to 32 bytes apart from
`*session`, or to the member `session->msg32`. -/
inductive msg32_arg where
  | object (bytes : List Nat) : msg32_arg
  | of_session : msg32_arg
deriving DecidableEq, Repr

/-- The bytes behind `msg32` while `session->msg32` holds `cur`. -/
def msg32_arg.read : msg32_arg → List Nat → List Nat
  | msg32_arg.object bytes, _ => bytes
  | msg32_arg.of_session, cur => cur

/-- A `musig2_session` after `memset(session, 0, sizeof(*session))`. -/
def session_zeroed (B : Backend Fe Pt) : musig2_session Fe :=
  { keyagg :=
      { X_tilde := ge_zeroed B
        a := List.replicate MUSIG2_MAX_SIGNERS 0
        n_signers := 0
        is_initialized := 0 }
    X_tilde := ge_zeroed B
    msg32 := List.replicate 32 0
    b := 0
    c := 0
    signer_index := 0
    has_b := 0
    has_c := 0
    is_initialized := 0 }

/-- The loop `for (i = 0; i < 32; i++) session->msg32[i] = msg32[i]` of
`musig2_session_init`, entered at index `i` with `k` iterations left; `dst` is
`session->msg32`, and `msg32[i]` is read from memory as the loop has left it. -/
def musig2_session_init_loop (msg32 : msg32_arg) : Nat → Nat → List Nat → Option (List Nat)
  | 0, _, dst => some dst
  | k + 1, i, dst =>
    match (msg32.read dst)[i]? with
    | none => none
    | some v => musig2_session_init_loop msg32 k (i + 1) (dst.set i v)

/-- `musig2_session_init` (session_impl2.h:65).  Returns the C return value and the
contents of `*session`.  The two checks read `*keyagg` as the caller left it; the copies
read `*keyagg` and `msg32` after `*session` has been cleared. -/
def musig2_session_init (B : Backend Fe Pt) (session : Option (musig2_session Fe))
    (keyagg : Option (keyagg_arg Fe)) (msg32 : Option msg32_arg)
    (signer_index : Nat) : Option (Int × Option (musig2_session Fe)) :=
  match session, keyagg, msg32 with
  | none, _, _ => some (0, session)
  | _, none, _ => some (0, session)
  | _, _, none => some (0, session)
  | some s, some keyagg, some msg32 =>
    if (keyagg.read s).is_initialized = 0 then
      some (0, session)
    else if signer_index ≥ (keyagg.read s).n_signers then
      some (0, session)
    else
      -- memset(session, 0, sizeof(*session))
      let s : musig2_session Fe := session_zeroed B
      -- session->keyagg = *keyagg
      let s := { s with keyagg := keyagg.read s }
      -- session->X_tilde = keyagg->X_tilde
      let s := { s with X_tilde := (keyagg.read s).X_tilde }
      match musig2_session_init_loop msg32 32 0 s.msg32 with
      | none => none
      | some m =>
        let s := { s with msg32 := m }
        let s := { s with signer_index := signer_index }
        let s := { s with is_initialized := 1 }
        let s := { s with has_b := 0 }
        let s := { s with has_c := 0 }
        some (1, some s)

/-- `musig2_nonce_state_init` (session_impl2.h:100).  Returns the C return value and
the contents of `*st`. -/
def musig2_nonce_state_init (st : Option musig2_nonce_state) (r : Option (nonce_array Nat)) :
    Int × Option musig2_nonce_state :=
  match st, r with
  | none, _ => (0, st)
  | _, none => (0, st)
  | some st, some r =>
    let st := (List.range MUSIG2_NONCE_COUNT).foldl
      (fun (st : musig2_nonce_state) j => { st with r := st.r.set j (r.get j) }) st
    (1, some { st with has_secret := 1 })

/-- The inner loop `for (i = 0; i < n_signers; i++)` of `musig2_nonce_agg`
(session_impl2.h:137) for the nonce index `j`, entered at `i` with `k` iterations
left; the state is the accumulator `Rj`. -/
def musig2_nonce_agg_inner (B : Backend Fe Pt) (pub_R_all : List (secp256k1_ge Fe)) (j : Nat) :
    Nat → Nat → Pt → Option Pt
  | 0, _, Rj => some Rj
  | k + 1, i, Rj =>
    match pub_R_all[i * MUSIG2_NONCE_COUNT + j]? with
    | none => none
    | some Rij =>
      if secp256k1_ge_is_infinity Rij ≠ 0 then
        musig2_nonce_agg_inner B pub_R_all j k (i + 1) Rj
      else
        musig2_nonce_agg_inner B pub_R_all j k (i + 1) (secp256k1_gej_add_ge_var B Rj Rij)

/-- The outer loop `for (j = 0; j < MUSIG2_NONCE_COUNT; j++)` of `musig2_nonce_agg`
(session_impl2.h:133), entered at `j` with `k` iterations left. -/
def musig2_nonce_agg_outer (B : Backend Fe Pt) (pub_R_all : List (secp256k1_ge Fe))
    (n_signers : Nat) :
    Nat → Nat → musig2_nonce_agg_state Fe → Option (musig2_nonce_agg_state Fe)
  | 0, _, st => some st
  | k + 1, j, st =>
    match musig2_nonce_agg_inner B pub_R_all j n_signers 0 secp256k1_gej_set_infinity with
    | none => none
    | some Rj =>
      musig2_nonce_agg_outer B pub_R_all n_signers k (j + 1)
        { st with R_agg := st.R_agg.set j (B.ge_set_gej Rj) }

/-- `musig2_nonce_agg` (session_impl2.h:116).  Returns the C return value and the
contents of `*agg_state`. -/
def musig2_nonce_agg (B : Backend Fe Pt) (pub_R_all : Option (List (secp256k1_ge Fe)))
    (n_signers : Nat) (agg_state : Option (musig2_nonce_agg_state Fe)) :
    Option (Int × Option (musig2_nonce_agg_state Fe)) :=
  match pub_R_all, agg_state with
  | none, _ => some (0, agg_state)
  | _, none => some (0, agg_state)
  | some pub_R_all, some _ =>
    if n_signers = 0 ∨ n_signers > MUSIG2_MAX_SIGNERS then
      some (0, agg_state)
    else
      -- memset(agg_state, 0, sizeof(*agg_state))
      let st : musig2_nonce_agg_state Fe :=
        { R_agg := { e0 := ge_zeroed B, e1 := ge_zeroed B }
          R_eff := ge_zeroed B
          has_agg := 0
          has_eff := 0 }
      match musig2_nonce_agg_outer B pub_R_all n_signers MUSIG2_NONCE_COUNT 0 st with
      | none => none
      | some st =>
        let st := { st with has_agg := 1 }
        let st := { st with has_eff := 0 }
        some (1, some st)

/-- `musig2_compute_b` (session_impl2.h:163).  The `VERIFY_CHECK`s (non-null
pointers, `agg->has_agg`) generate no code. -/
def musig2_compute_b (B : Backend Fe Pt) (g : musig2_globals) (session : musig2_session Fe)
    (agg : musig2_nonce_agg_state Fe) : musig2_globals × Nat :=
  let g := musig2_init_nonce_tagged_hash B g
  let sha := g.musig2_tagged_hash_nonce_init
  let x := session.X_tilde.x
  let x := B.fe_normalize x
  let buf := B.fe_get_b32 x
  let sha := secp256k1_sha256_write sha buf 32
  let sha := (List.range MUSIG2_NONCE_COUNT).foldl
    (fun sha i =>
      let x := (agg.R_agg.get i).x
      let x := B.fe_normalize x
      let buf := B.fe_get_b32 x
      secp256k1_sha256_write sha buf 32) sha
  let sha := secp256k1_sha256_write sha session.msg32 32
  let buf := secp256k1_sha256_finalize B sha
  (g, secp256k1_scalar_set_b32 B buf)

/-- `musig2_compute_c` (session_impl2.h:208).  The `VERIFY_CHECK`s (non-null
pointers, `agg->has_eff`) generate no code. -/
def musig2_compute_c (B : Backend Fe Pt) (g : musig2_globals) (session : musig2_session Fe)
    (agg : musig2_nonce_agg_state Fe) : musig2_globals × Nat :=
  let g := musig2_init_sig_tagged_hash B g
  let sha := g.musig2_tagged_hash_sig_init
  let x := agg.R_eff.x
  let x := B.fe_normalize x
  let buf := B.fe_get_b32 x
  let sha := secp256k1_sha256_write sha buf 32
  let x := session.X_tilde.x
  let x := B.fe_normalize x
  let buf := B.fe_get_b32 x
  let sha := secp256k1_sha256_write sha buf 32
  let sha := secp256k1_sha256_write sha session.msg32 32
  let buf := secp256k1_sha256_finalize B sha
  (g, secp256k1_scalar_set_b32 B buf)

/-- `musig2_session_compute_bR_and_c` (session_impl2.h:244).  Returns the statics,
the C return value and the contents of `*session` and `*agg_state`. -/
def musig2_session_compute_bR_and_c (B : Backend Fe Pt) (g : musig2_globals)
    (session : Option (musig2_session Fe)) (agg_state : Option (musig2_nonce_agg_state Fe)) :
    musig2_globals × Int × Option (musig2_session Fe) × Option (musig2_nonce_agg_state Fe) :=
  match session, agg_state with
  | none, _ => (g, 0, session, agg_state)
  | _, none => (g, 0, session, agg_state)
  | some session, some agg_state =>
    if session.is_initialized = 0 then
      (g, 0, some session, some agg_state)
    else if agg_state.has_agg = 0 then
      (g, 0, some session, some agg_state)
    else
      let (g, b) := musig2_compute_b B g session agg_state
      let session := { session with b := b }
      let session := { session with has_b := 1 }
      let Rj : Pt := secp256k1_gej_set_infinity
      let Rj := secp256k1_gej_add_ge_var B Rj (agg_state.R_agg.get 0)
      let R1b := secp256k1_ecmult_const B (agg_state.R_agg.get 1) b
      let Rj := secp256k1_gej_add_var Rj R1b
      let agg_state := { agg_state with R_eff := B.ge_set_gej Rj }
      let agg_state := { agg_state with has_eff := 1 }
      let (g, c) := musig2_compute_c B g session agg_state
      let session := { session with c := c }
      let session := { session with has_c := 1 }
      (g, 1, some session, some agg_state)

/-- `musig2_partial_sign` (session_impl2.h:296).  Returns the C return value and the
contents of `*s_i_out`; `none` when `keyagg.a` is read outside its cells. -/
def musig2_partial_sign (B : Backend Fe Pt) (session : Option (musig2_session Fe))
    (seckey : Option Nat) (nonce : Option musig2_nonce_state) (s_i_out : Option Nat) :
    Option (Int × Option Nat) :=
  match session, seckey, nonce, s_i_out with
  | none, _, _, _ => some (0, s_i_out)
  | _, none, _, _ => some (0, s_i_out)
  | _, _, none, _ => some (0, s_i_out)
  | _, _, _, none => some (0, s_i_out)
  | some session, some seckey, some nonce, some _ =>
    if session.is_initialized = 0 ∨ session.has_b = 0 ∨ session.has_c = 0 then
      some (0, s_i_out)
    else if nonce.has_secret = 0 then
      some (0, s_i_out)
    else if session.signer_index ≥ session.keyagg.n_signers then
      some (0, s_i_out)
    else
      match session.keyagg.a[session.signer_index]? with
      | none => none
      | some ai =>
        let tmp := secp256k1_scalar_mul B session.c ai
        let tmp := secp256k1_scalar_mul B tmp seckey
        let si := secp256k1_scalar_mul B (nonce.r.get 1) session.b
        let si := secp256k1_scalar_add B si (nonce.r.get 0)
        let si := secp256k1_scalar_add B si tmp
        some (1, some si)

/-- The loop `for (i = 0; i < n_signers; i++)` of `musig2_partial_sig_agg`
(session_impl2.h:357), entered at index `i` with `k` iterations left. -/
def musig2_partial_sig_agg_loop (B : Backend Fe Pt) (s_partials : List Nat) :
    Nat → Nat → Nat → Option Nat
  | 0, _, s => some s
  | k + 1, i, s =>
    match s_partials[i]? with
    | none => none
    | some si => musig2_partial_sig_agg_loop B s_partials k (i + 1) (secp256k1_scalar_add B s si)

/-- `musig2_partial_sig_agg` (session_impl2.h:341).  Returns the C return value and
the contents of `*s_out`. -/
def musig2_partial_sig_agg (B : Backend Fe Pt) (s_partials : Option (List Nat))
    (n_signers : Nat) (s_out : Option Nat) : Option (Int × Option Nat) :=
  match s_partials, s_out with
  | none, _ => some (0, s_out)
  | _, none => some (0, s_out)
  | some s_partials, some _ =>
    if n_signers = 0 ∨ n_signers > MUSIG2_MAX_SIGNERS then
      some (0, s_out)
    else
      match musig2_partial_sig_agg_loop B s_partials n_signers 0 secp256k1_scalar_clear with
      | none => none
      | some s => some (1, some s)

/-! ## Vocabulary of the specification -/

/-- The statics a program can hold: their start values, changed only by the three
memoising initialisers. -/
inductive musig2_globals.reachable (B : Backend Fe Pt) : musig2_globals → Prop
  | start : musig2_globals.reachable B musig2_globals_start
  | agg (g : musig2_globals) :
      musig2_globals.reachable B g →
      musig2_globals.reachable B (musig2_init_agg_tagged_hash B g)
  | nonce (g : musig2_globals) :
      musig2_globals.reachable B g →
      musig2_globals.reachable B (musig2_init_nonce_tagged_hash B g)
  | sig (g : musig2_globals) :
      musig2_globals.reachable B g →
      musig2_globals.reachable B (musig2_init_sig_tagged_hash B g)

/-- The specification's `ser(X)`: the 32 bytes of the normalised x-coordinate. -/
def spec_ser_x (B : Backend Fe Pt) (P : secp256k1_ge Fe) : List Nat :=
  B.fe_get_b32 (B.fe_normalize P.x)

/-- The specification's `H_tag(data) = Hash(Hash(tag) ∥ Hash(tag) ∥ data)`. -/
def spec_tagged_hash (B : Backend Fe Pt) (tag data : List Nat) : List Nat :=
  B.sha256 (B.sha256 tag ++ B.sha256 tag ++ data)

/-- The specification's `scalar(d)`: the digest read big-endian, reduced modulo the
group order. -/
def spec_scalar (B : Backend Fe Pt) (digest : List Nat) : Nat :=
  be_value digest % B.order

/-- The ASCII bytes of a tag literal. -/
def spec_tag (tag : String) : List Nat := tag.toList.map Char.toNat

/-- The specification's `a_i = scalar(H_agg(ser(L) ∥ ser(X_i)))`. -/
def spec_coefficient (B : Backend Fe Pt) (L : List (secp256k1_ge Fe)) (Xi : secp256k1_ge Fe) :
    Nat :=
  spec_scalar B (spec_tagged_hash B (spec_tag "MuSig2/agg")
    (L.flatMap (spec_ser_x B) ++ spec_ser_x B Xi))

/-! ## A small backend on which the definitions evaluate -/

/-- A backend over the cyclic group of order 7: a point `p ≠ 0` has the affine
coordinates `(p * (7 - p), p)`, so that `p` and `-p` share their x-coordinate; the
digest is a 32-byte polynomial checksum. -/
def small_backend : Backend Nat (ZMod 7) :=
  { order := 7
    sha256 := fun m =>
      (List.range 32).map (fun k => m.foldl (fun acc b => (acc * 33 + b + k) % 251) 5)
    fe_zero := 0
    fe_normalize := fun x => x % 13
    fe_get_b32 := fun x => (List.range 32).map (fun k => x / 256 ^ (31 - k) % 256)
    gej_set_ge := fun a => if a.infinity ≠ 0 then 0 else (a.y : ZMod 7)
    ge_set_gej := fun P =>
      if P = 0 then { x := 0, y := 0, infinity := 1 }
      else { x := P.val * (7 - P.val), y := P.val, infinity := 0 } }

/-- The affine element `(x, y)` with the infinity flag cleared. -/
def affine (x y : Nat) : secp256k1_ge Nat := { x := x, y := y, infinity := 0 }

/-! ## Concrete data over the small backend -/

/-- The points 1, 2 and 3 of the small backend. -/
def sample_keys : List (secp256k1_ge Nat) := [affine 6 1, affine 10 2, affine 12 3]

/-- The point 1 of the small backend and its negative, the point 6: they share the
x-coordinate 6. -/
def sample_P : secp256k1_ge Nat := affine 6 1

/-- The negative of `sample_P`. -/
def sample_negP : secp256k1_ge Nat := affine 6 6

/-- A cache holding zero bytes. -/
def sample_cache : musig2_keyagg_cache Nat :=
  { X_tilde := affine 0 0, a := List.replicate 16 0, n_signers := 0, is_initialized := 0 }

/-- An aggregation state after nonce aggregation. -/
def sample_agg : musig2_nonce_agg_state Nat :=
  { R_agg := { e0 := affine 6 1, e1 := affine 10 2 }
    R_eff := affine 0 0
    has_agg := 1
    has_eff := 0 }

/-- A 32-byte message. -/
def sample_msg : List Nat := List.range 32

/-- A fully bound session of the signer 1 among three. -/
def sample_session : musig2_session Nat :=
  { keyagg :=
      { X_tilde := affine 10 2
        a := [2, 1, 4, 0, 0, 0, 0, 0, 0, 0, 0, 0, 0, 0, 0, 0]
        n_signers := 3
        is_initialized := 1 }
    X_tilde := affine 10 2
    msg32 := sample_msg
    b := 3
    c := 5
    signer_index := 1
    has_b := 1
    has_c := 1
    is_initialized := 1 }

/-- A nonce state holding the secret nonces 2 and 6. -/
def sample_nonce : musig2_nonce_state := { r := { e0 := 2, e1 := 6 }, has_secret := 1 }

/-- Two signers: their secret keys and secret nonce pairs. -/
def sample_signers : List (Nat × nonce_array Nat) :=
  [(3, { e0 := 1, e1 := 2 }), (5, { e0 := 4, e1 := 6 })]

/-- The aggregation states of the claim on reachable states: those left by a call of
`musig2_nonce_agg` that returned 1, and what calls of
`musig2_session_compute_bR_and_c`, successful or not, leave of them. -/
inductive nonce_agg_reachable (B : Backend Fe Pt) : musig2_nonce_agg_state Fe → Prop
  | agg (pub_R_all : Option (List (secp256k1_ge Fe))) (n : Nat)
      (agg0 : Option (musig2_nonce_agg_state Fe)) (agg : musig2_nonce_agg_state Fe) :
      musig2_nonce_agg B pub_R_all n agg0 = some (1, some agg) →
      nonce_agg_reachable B agg
  | compute (g g' : musig2_globals) (ret : Int)
      (session session' : Option (musig2_session Fe))
      (agg agg' : musig2_nonce_agg_state Fe) :
      nonce_agg_reachable B agg →
      musig2_session_compute_bR_and_c B g session (some agg) =
        (g', ret, session', some agg') →
      nonce_agg_reachable B agg'

/-- The sessions of the claim on reachable states: those left by a call of
`musig2_session_init` that returned 1 on a pointer to a cache left by a call of
`musig2_keyagg` that returned 1, and what calls of `musig2_session_compute_bR_and_c`,
successful or not, on a null or reachable aggregation state leave of them.  In `init`,
`session0` is what `*session` holds when `musig2_session_init` is called. -/
inductive session_reachable (B : Backend Fe Pt) : musig2_session Fe → Prop
  | init (g g' : musig2_globals) (pubkeys : Option (List (secp256k1_ge Fe))) (n : Nat)
      (cache0 : Option (musig2_keyagg_cache Fe)) (X X' : Option (secp256k1_ge Fe))
      (cache : musig2_keyagg_cache Fe) (session0 : musig2_session Fe)
      (keyagg : keyagg_arg Fe) (msg32 : Option msg32_arg) (signer_index : Nat)
      (session : musig2_session Fe) :
      musig2_keyagg B g pubkeys n cache0 X = some (g', 1, some cache, X') →
      keyagg.read session0 = cache →
      musig2_session_init B (some session0) (some keyagg) msg32 signer_index =
        some (1, some session) →
      session_reachable B session
  | compute (g g' : musig2_globals) (ret : Int) (session session' : musig2_session Fe)
      (agg agg' : Option (musig2_nonce_agg_state Fe)) :
      session_reachable B session →
      (∀ a, agg = some a → nonce_agg_reachable B a) →
      musig2_session_compute_bR_and_c B g (some session) agg =
        (g', ret, some session', agg') →
      session_reachable B session'

/-- The invariant that the claim on reachable states gives for a session. -/
def session_invariant (s : musig2_session Fe) : Prop :=
  s.is_initialized = 1 ∧
  s.signer_index < s.keyagg.n_signers ∧ s.keyagg.n_signers ≤ MUSIG2_MAX_SIGNERS ∧
  s.X_tilde = s.keyagg.X_tilde ∧
  (s.has_c ≠ 0 → s.has_b ≠ 0)

/-! ## More concrete data over the small backend -/

/-- The cache that `musig2_keyagg` leaves for `sample_keys` on the small backend. -/
def sample_filled_cache : musig2_keyagg_cache Nat :=
  { X_tilde := affine 10 2
    a := [2, 1, 4, 0, 0, 0, 0, 0, 0, 0, 0, 0, 0, 0, 0, 0]
    n_signers := 3
    is_initialized := 1 }

/-- The session that `musig2_session_init` leaves for the signer 1 of
`sample_filled_cache` and `sample_msg`. -/
def sample_fresh_session : musig2_session Nat :=
  { keyagg := sample_filled_cache
    X_tilde := affine 10 2
    msg32 := sample_msg
    b := 0
    c := 0
    signer_index := 1
    has_b := 0
    has_c := 0
    is_initialized := 1 }

/-- What `musig2_session_init` leaves of `sample_session` when it is called for the
signer 1 with `keyagg = &session->keyagg`: the cache and the aggregated key hold zero
bytes. -/
def sample_aliased_session : musig2_session Nat :=
  { keyagg :=
      { X_tilde := { x := 0, y := 0, infinity := 0 }
        a := List.replicate 16 0
        n_signers := 0
        is_initialized := 0 }
    X_tilde := { x := 0, y := 0, infinity := 0 }
    msg32 := sample_msg
    b := 0
    c := 0
    signer_index := 1
    has_b := 0
    has_c := 0
    is_initialized := 1 }

end Defs

end MuSig2

/-! # Theorems -/

namespace MuSig2

section Lemmas

variable {Fe Pt : Type} [AddCommGroup Pt]

theorem small_backend_lawful : small_backend.Lawful where
  sha256_length := by intro m; simp [small_backend]
  fe_get_b32_length := by intro x; simp [small_backend]
  gej_set_ge_set_gej := by
    intro P
    by_cases h : P = 0
    · simp [small_backend, h]
    · simp [small_backend, h]
  gej_set_ge_infinity := by
    intro a h
    simp [small_backend, h]
  ge_set_gej_infinity := by
    intro P
    by_cases h : P = 0
    · simp [small_backend, h]
    · simp [small_backend, h]

theorem sha256_write_full (sha data : List Nat) (h : data.length = 32) :
    secp256k1_sha256_write sha data 32 = sha ++ data := by
  unfold secp256k1_sha256_write
  rw [List.take_of_length_le (by omega)]

theorem spec_ser_x_length (B : Backend Fe Pt) (hB : B.Lawful) (P : secp256k1_ge Fe) :
    (spec_ser_x B P).length = 32 :=
  hB.fe_get_b32_length _

theorem scalar_set_b32_digest (B : Backend Fe Pt) (hB : B.Lawful) (m : List Nat) :
    secp256k1_scalar_set_b32 B (secp256k1_sha256_finalize B m) = spec_scalar B (B.sha256 m) := by
  unfold secp256k1_scalar_set_b32 secp256k1_sha256_finalize spec_scalar
  rw [List.take_of_length_le (by rw [hB.sha256_length])]

theorem tag_agg_bytes : MUSIG2_TAG_AGG.take (MUSIG2_TAG_AGG.length - 1) = spec_tag "MuSig2/agg" := by
  decide

theorem agg_init_state_of (B : Backend Fe Pt) (hB : B.Lawful) (g : musig2_globals)
    (h : g.musig2_tagged_hash_agg_state_inited = 0 ∨
      g.musig2_tagged_hash_agg_init_state =
        B.sha256 (spec_tag "MuSig2/agg") ++ B.sha256 (spec_tag "MuSig2/agg")) :
    (musig2_init_agg_tagged_hash B g).musig2_tagged_hash_agg_init_state =
      B.sha256 (spec_tag "MuSig2/agg") ++ B.sha256 (spec_tag "MuSig2/agg") := by
  unfold musig2_init_agg_tagged_hash
  split_ifs with h0
  · exact h.resolve_left h0
  · simp only [secp256k1_sha256_write, secp256k1_sha256_initialize, secp256k1_sha256_finalize,
      List.nil_append]
    rw [tag_agg_bytes, List.take_of_length_le (by rw [hB.sha256_length])]

theorem agg_state_inv (B : Backend Fe Pt) (hB : B.Lawful) (g : musig2_globals)
    (hg : musig2_globals.reachable B g) :
    g.musig2_tagged_hash_agg_state_inited = 0 ∨
      g.musig2_tagged_hash_agg_init_state =
        B.sha256 (spec_tag "MuSig2/agg") ++ B.sha256 (spec_tag "MuSig2/agg") := by
  induction hg with
  | start => left; rfl
  | agg g _ ih => right; exact agg_init_state_of B hB g ih
  | nonce g _ ih => simpa [musig2_init_nonce_tagged_hash] using ih
  | sig g _ ih => simpa [musig2_init_sig_tagged_hash] using ih

/-- After the initialiser has run from reachable statics, the memoised state for
`H_agg` is `Hash(tag) ∥ Hash(tag)`. -/
theorem agg_midstate (B : Backend Fe Pt) (hB : B.Lawful) (g : musig2_globals)
    (hg : musig2_globals.reachable B g) :
    (musig2_init_agg_tagged_hash B g).musig2_tagged_hash_agg_init_state =
      B.sha256 (spec_tag "MuSig2/agg") ++ B.sha256 (spec_tag "MuSig2/agg") :=
  agg_init_state_of B hB g (agg_state_inv B hB g hg)

/-- The serialisation loop of `musig2_hash_agg` absorbs `ser` of the keys it visits. -/
theorem hash_agg_loop_eq (B : Backend Fe Pt) (hB : B.Lawful) (pubkeys : List (secp256k1_ge Fe)) :
    ∀ (k i : Nat) (sha : secp256k1_sha256), i + k ≤ pubkeys.length →
      musig2_hash_agg_loop B pubkeys k i sha =
        some (sha ++ ((pubkeys.drop i).take k).flatMap (spec_ser_x B)) := by
  intro k
  induction k with
  | zero => intro i sha _; simp [musig2_hash_agg_loop]
  | succ k ih =>
    intro i sha h
    have hi : i < pubkeys.length := by omega
    rw [musig2_hash_agg_loop, List.getElem?_eq_getElem hi]
    simp only
    rw [ih (i + 1) _ (by omega), sha256_write_full _ _ (hB.fe_get_b32_length _),
      List.drop_eq_getElem_cons hi, List.take_succ_cons, List.flatMap_cons, List.append_assoc]
    rfl

/-- The value of `musig2_hash_agg` on a whole key list. -/
theorem hash_agg_eq (B : Backend Fe Pt) (hB : B.Lawful) (g : musig2_globals)
    (hg : musig2_globals.reachable B g) (L : List (secp256k1_ge Fe)) (Xi : secp256k1_ge Fe) :
    musig2_hash_agg B g L L.length Xi =
      some (musig2_init_agg_tagged_hash B g, spec_coefficient B L Xi) := by
  unfold musig2_hash_agg
  simp only
  rw [hash_agg_loop_eq B hB L L.length 0 _ (by omega), agg_midstate B hB g hg]
  simp only
  rw [sha256_write_full _ _ (hB.fe_get_b32_length _), scalar_set_b32_digest B hB]
  simp [spec_coefficient, spec_tagged_hash, spec_ser_x, List.append_assoc]

omit [AddCommGroup Pt] in
theorem reachable_hash_agg (B : Backend Fe Pt) (g : musig2_globals)
    (hg : musig2_globals.reachable B g) :
    musig2_globals.reachable B (musig2_init_agg_tagged_hash B g) :=
  musig2_globals.reachable.agg g hg

/-- The accumulation loop of `musig2_keyagg`: the coefficients stored and the point
accumulated by `k` iterations from index `i`. -/
theorem keyagg_loop_eq (B : Backend Fe Pt) (hB : B.Lawful) (L : List (secp256k1_ge Fe)) :
    ∀ (k i : Nat) (g : musig2_globals) (cache : musig2_keyagg_cache Fe) (Xj : Pt),
      musig2_globals.reachable B g → i + k ≤ L.length → i + k ≤ cache.a.length →
      ∃ (g' : musig2_globals) (a' : List Nat),
        musig2_keyagg_loop B L L.length k i (g, cache, Xj) =
          some (g', { cache with a := a' },
            Xj + (((L.drop i).take k).map
              (fun P => spec_coefficient B L P • B.gej_set_ge P)).sum) ∧
        musig2_globals.reachable B g' ∧
        a'.length = cache.a.length ∧
        ∀ j, a'[j]? =
          if i ≤ j ∧ j < i + k then L[j]?.map (spec_coefficient B L) else cache.a[j]? := by
  intro k
  induction k with
  | zero =>
    intro i g cache Xj hg _ _
    refine ⟨g, cache.a, ?_, hg, rfl, ?_⟩
    · simp [musig2_keyagg_loop]
    · intro j
      have : ¬ (i ≤ j ∧ j < i + 0) := by omega
      rw [if_neg this]
  | succ k ih =>
    intro i g cache Xj hg hL ha
    have hi : i < L.length := by omega
    obtain ⟨g', a', heq, hr, hlen, hget⟩ :=
      ih (i + 1) (musig2_init_agg_tagged_hash B g)
        { cache with a := cache.a.set i (spec_coefficient B L L[i]) }
        (Xj + spec_coefficient B L L[i] • B.gej_set_ge L[i])
        (reachable_hash_agg B g hg) (by omega) (by simp; omega)
    refine ⟨g', a', ?_, hr, by simpa using hlen, ?_⟩
    · rw [musig2_keyagg_loop, List.getElem?_eq_getElem hi]
      simp only
      rw [hash_agg_eq B hB g hg]
      simp only [secp256k1_ecmult_const, secp256k1_gej_add_var]
      rw [heq, List.drop_eq_getElem_cons hi, List.take_succ_cons, List.map_cons, List.sum_cons,
        add_assoc]
    · intro j
      rw [hget j]
      by_cases h1 : i + 1 ≤ j ∧ j < i + 1 + k
      · have h2 : i ≤ j ∧ j < i + (k + 1) := by omega
        rw [if_pos h1, if_pos h2]
      · rw [if_neg h1]
        by_cases h3 : i = j
        · subst h3
          have h2 : i ≤ i ∧ i < i + (k + 1) := by omega
          rw [if_pos h2, List.getElem?_eq_getElem hi]
          simp [List.getElem?_set]
          omega
        · have h2 : ¬ (i ≤ j ∧ j < i + (k + 1)) := by omega
          rw [if_neg h2]
          simp [List.getElem?_set, h3]

/-- The outcome of `musig2_keyagg` on a whole key list of admissible length. -/
theorem keyagg_eq (B : Backend Fe Pt) (hB : B.Lawful) (g : musig2_globals)
    (hg : musig2_globals.reachable B g) (L : List (secp256k1_ge Fe))
    (cache0 : musig2_keyagg_cache Fe) (X_tilde_out : Option (secp256k1_ge Fe))
    (h1 : 1 ≤ L.length) (h16 : L.length ≤ 16) :
    ∃ (g' : musig2_globals) (a' : List Nat),
      musig2_keyagg B g (some L) L.length (some cache0) X_tilde_out =
        some (g', 1,
          some { X_tilde := B.ge_set_gej
                   ((L.map (fun P => spec_coefficient B L P • B.gej_set_ge P)).sum)
                 a := a'
                 n_signers := L.length
                 is_initialized := 1 },
          X_tilde_out.map (fun _ => B.ge_set_gej
            ((L.map (fun P => spec_coefficient B L P • B.gej_set_ge P)).sum))) ∧
      musig2_globals.reachable B g' ∧
      a'.length = 16 ∧
      ∀ j, a'[j]? = if j < L.length then L[j]?.map (spec_coefficient B L)
        else if j < 16 then some 0 else none := by
  obtain ⟨g', a', heq, hr, hlen, hget⟩ :=
    keyagg_loop_eq B hB L L.length 0 g
      { X_tilde := ge_zeroed B, a := List.replicate MUSIG2_MAX_SIGNERS 0,
        n_signers := L.length, is_initialized := 0 }
      secp256k1_gej_set_infinity hg (by omega)
      (by simp only [List.length_replicate, MUSIG2_MAX_SIGNERS]; omega)
  simp only [List.length_replicate, MUSIG2_MAX_SIGNERS, zero_add, Nat.zero_le, true_and,
    List.drop_zero, List.take_length] at heq hlen hget
  refine ⟨g', a', ?_, hr, hlen, ?_⟩
  · have hn : ¬ (L.length = 0 ∨ L.length > MUSIG2_MAX_SIGNERS) := by
      unfold MUSIG2_MAX_SIGNERS; omega
    have hmax : MUSIG2_MAX_SIGNERS = 16 := rfl
    unfold musig2_keyagg
    simp only [if_neg hn]
    rw [hmax, heq]
    cases X_tilde_out <;> simp [secp256k1_gej_set_infinity]
  · intro j
    rw [hget j]
    by_cases hj : j < L.length
    · simp [hj]
    · rw [if_neg hj, if_neg hj, List.getElem?_replicate]

theorem tag_nonce_bytes :
    MUSIG2_TAG_NONCE.take (MUSIG2_TAG_NONCE.length - 1) = spec_tag "MuSig2/noncecoef" := by
  decide

theorem tag_sig_bytes :
    MUSIG2_TAG_SIG.take (MUSIG2_TAG_SIG.length - 1) = spec_tag "BIP0340/challenge" := by
  decide

theorem init_tagged_hash_state_of (B : Backend Fe Pt) (hB : B.Lawful)
    (st : secp256k1_sha256) (flag : Int) (tag : List Nat) (taglen : Nat)
    (h : flag = 0 ∨ st = B.sha256 (tag.take taglen) ++ B.sha256 (tag.take taglen)) :
    (musig2_init_tagged_hash B st flag tag taglen).1 =
      B.sha256 (tag.take taglen) ++ B.sha256 (tag.take taglen) := by
  unfold musig2_init_tagged_hash
  split_ifs with h0
  · exact h.resolve_left h0
  · simp only [secp256k1_sha256_write, secp256k1_sha256_initialize, secp256k1_sha256_finalize,
      List.nil_append]
    rw [List.take_of_length_le (by rw [hB.sha256_length])]

theorem nonce_state_inv (B : Backend Fe Pt) (hB : B.Lawful) (g : musig2_globals)
    (hg : musig2_globals.reachable B g) :
    g.musig2_tagged_nonce_inited = 0 ∨
      g.musig2_tagged_hash_nonce_init =
        B.sha256 (spec_tag "MuSig2/noncecoef") ++ B.sha256 (spec_tag "MuSig2/noncecoef") := by
  induction hg with
  | start => left; rfl
  | agg g _ ih =>
    unfold musig2_init_agg_tagged_hash
    split_ifs
    · exact ih
    · exact ih
  | nonce g _ ih =>
    right
    have := init_tagged_hash_state_of B hB g.musig2_tagged_hash_nonce_init
      g.musig2_tagged_nonce_inited MUSIG2_TAG_NONCE (MUSIG2_TAG_NONCE.length - 1)
      (by rw [tag_nonce_bytes]; exact ih)
    rw [tag_nonce_bytes] at this
    exact this
  | sig g _ ih => simpa [musig2_init_sig_tagged_hash] using ih

theorem sig_state_inv (B : Backend Fe Pt) (hB : B.Lawful) (g : musig2_globals)
    (hg : musig2_globals.reachable B g) :
    g.musig2_tagged_sig_inited = 0 ∨
      g.musig2_tagged_hash_sig_init =
        B.sha256 (spec_tag "BIP0340/challenge") ++ B.sha256 (spec_tag "BIP0340/challenge") := by
  induction hg with
  | start => left; rfl
  | agg g _ ih =>
    unfold musig2_init_agg_tagged_hash
    split_ifs
    · exact ih
    · exact ih
  | nonce g _ ih => simpa [musig2_init_nonce_tagged_hash] using ih
  | sig g _ ih =>
    right
    have := init_tagged_hash_state_of B hB g.musig2_tagged_hash_sig_init
      g.musig2_tagged_sig_inited MUSIG2_TAG_SIG (MUSIG2_TAG_SIG.length - 1)
      (by rw [tag_sig_bytes]; exact ih)
    rw [tag_sig_bytes] at this
    exact this

/-- The value of `musig2_compute_b`. -/
theorem compute_b_eq (B : Backend Fe Pt) (hB : B.Lawful) (g : musig2_globals)
    (hg : musig2_globals.reachable B g) (session : musig2_session Fe)
    (agg : musig2_nonce_agg_state Fe) :
    musig2_compute_b B g session agg =
      (musig2_init_nonce_tagged_hash B g,
        spec_scalar B (spec_tagged_hash B (spec_tag "MuSig2/noncecoef")
          (spec_ser_x B session.X_tilde ++ spec_ser_x B agg.R_agg.e0 ++
            spec_ser_x B agg.R_agg.e1 ++ session.msg32.take 32))) := by
  have hmid : (musig2_init_nonce_tagged_hash B g).musig2_tagged_hash_nonce_init =
      B.sha256 (spec_tag "MuSig2/noncecoef") ++ B.sha256 (spec_tag "MuSig2/noncecoef") := by
    have := init_tagged_hash_state_of B hB g.musig2_tagged_hash_nonce_init
      g.musig2_tagged_nonce_inited MUSIG2_TAG_NONCE (MUSIG2_TAG_NONCE.length - 1)
      (by rw [tag_nonce_bytes]; exact nonce_state_inv B hB g hg)
    rw [tag_nonce_bytes] at this
    exact this
  unfold musig2_compute_b
  simp only [hmid, MUSIG2_NONCE_COUNT, List.range_succ, List.range_zero, List.nil_append,
    List.singleton_append, List.foldl_cons, List.foldl_nil, nonce_array.get, if_true,
    one_ne_zero, if_false]
  rw [sha256_write_full _ _ (hB.fe_get_b32_length _), sha256_write_full _ _ (hB.fe_get_b32_length _),
    sha256_write_full _ _ (hB.fe_get_b32_length _), scalar_set_b32_digest B hB]
  simp [spec_tagged_hash, spec_ser_x, secp256k1_sha256_write, List.append_assoc]

/-- The value of `musig2_compute_c`. -/
theorem compute_c_eq (B : Backend Fe Pt) (hB : B.Lawful) (g : musig2_globals)
    (hg : musig2_globals.reachable B g) (session : musig2_session Fe)
    (agg : musig2_nonce_agg_state Fe) :
    musig2_compute_c B g session agg =
      (musig2_init_sig_tagged_hash B g,
        spec_scalar B (spec_tagged_hash B (spec_tag "BIP0340/challenge")
          (spec_ser_x B agg.R_eff ++ spec_ser_x B session.X_tilde ++ session.msg32.take 32))) := by
  have hmid : (musig2_init_sig_tagged_hash B g).musig2_tagged_hash_sig_init =
      B.sha256 (spec_tag "BIP0340/challenge") ++ B.sha256 (spec_tag "BIP0340/challenge") := by
    have := init_tagged_hash_state_of B hB g.musig2_tagged_hash_sig_init
      g.musig2_tagged_sig_inited MUSIG2_TAG_SIG (MUSIG2_TAG_SIG.length - 1)
      (by rw [tag_sig_bytes]; exact sig_state_inv B hB g hg)
    rw [tag_sig_bytes] at this
    exact this
  unfold musig2_compute_c
  simp only [hmid]
  rw [sha256_write_full _ _ (hB.fe_get_b32_length _), sha256_write_full _ _ (hB.fe_get_b32_length _),
    scalar_set_b32_digest B hB]
  simp [spec_tagged_hash, spec_ser_x, secp256k1_sha256_write, List.append_assoc]

/-- The outcome of a call of `musig2_session_compute_bR_and_c` that passes its checks. -/
theorem compute_bR_and_c_eq (B : Backend Fe Pt) (hB : B.Lawful) (g : musig2_globals)
    (hg : musig2_globals.reachable B g) (session : musig2_session Fe)
    (agg : musig2_nonce_agg_state Fe) (hinit : session.is_initialized ≠ 0)
    (hagg : agg.has_agg ≠ 0) :
    musig2_session_compute_bR_and_c B g (some session) (some agg) =
      (musig2_init_sig_tagged_hash B (musig2_init_nonce_tagged_hash B g), 1,
        some { session with
          b := spec_scalar B (spec_tagged_hash B (spec_tag "MuSig2/noncecoef")
            (spec_ser_x B session.X_tilde ++ spec_ser_x B agg.R_agg.e0 ++
              spec_ser_x B agg.R_agg.e1 ++ session.msg32.take 32))
          has_b := 1
          c := spec_scalar B (spec_tagged_hash B (spec_tag "BIP0340/challenge")
            (spec_ser_x B (B.ge_set_gej (B.gej_set_ge agg.R_agg.e0 +
                spec_scalar B (spec_tagged_hash B (spec_tag "MuSig2/noncecoef")
                  (spec_ser_x B session.X_tilde ++ spec_ser_x B agg.R_agg.e0 ++
                    spec_ser_x B agg.R_agg.e1 ++ session.msg32.take 32)) •
                  B.gej_set_ge agg.R_agg.e1)) ++
              spec_ser_x B session.X_tilde ++ session.msg32.take 32))
          has_c := 1 },
        some { agg with
          R_eff := B.ge_set_gej (B.gej_set_ge agg.R_agg.e0 +
            spec_scalar B (spec_tagged_hash B (spec_tag "MuSig2/noncecoef")
              (spec_ser_x B session.X_tilde ++ spec_ser_x B agg.R_agg.e0 ++
                spec_ser_x B agg.R_agg.e1 ++ session.msg32.take 32)) •
              B.gej_set_ge agg.R_agg.e1)
          has_eff := 1 }) := by
  unfold musig2_session_compute_bR_and_c
  simp only [if_neg hinit, if_neg hagg]
  rw [compute_b_eq B hB g hg]
  simp only
  rw [compute_c_eq B hB _ (musig2_globals.reachable.nonce g hg)]
  simp [secp256k1_gej_set_infinity, secp256k1_gej_add_ge_var, secp256k1_ecmult_const,
    secp256k1_gej_add_var, nonce_array.get]

/-- The inner loop of `musig2_nonce_agg` adds the points of the nonces at index `j`;
a nonce with the infinity flag, which the loop skips, denotes the neutral point. -/
theorem nonce_agg_inner_eq (B : Backend Fe Pt) (hB : B.Lawful)
    (pub : List (secp256k1_ge Fe)) (R : List (nonce_array (secp256k1_ge Fe))) (j : Nat)
    (hpub : ∀ i (hi : i < R.length), pub[i * MUSIG2_NONCE_COUNT + j]? = some (R[i].get j)) :
    ∀ (k i : Nat) (Rj : Pt), i + k ≤ R.length →
      musig2_nonce_agg_inner B pub j k i Rj =
        some (Rj + (((R.drop i).take k).map (fun p => B.gej_set_ge (p.get j))).sum) := by
  intro k
  induction k with
  | zero => intro i Rj _; simp [musig2_nonce_agg_inner]
  | succ k ih =>
    intro i Rj h
    have hi : i < R.length := by omega
    rw [musig2_nonce_agg_inner, hpub i hi]
    simp only [secp256k1_ge_is_infinity, secp256k1_gej_add_ge_var]
    rw [List.drop_eq_getElem_cons hi, List.take_succ_cons, List.map_cons, List.sum_cons]
    split_ifs with hinf
    · rw [ih (i + 1) Rj (by omega), hB.gej_set_ge_infinity _ hinf, zero_add]
    · rw [ih (i + 1) _ (by omega), add_assoc]

/-- The outcome of `musig2_nonce_agg` on `n` nonce pairs laid out pair after pair. -/
theorem nonce_agg_eq (B : Backend Fe Pt) (hB : B.Lawful)
    (pub : List (secp256k1_ge Fe)) (R : List (nonce_array (secp256k1_ge Fe)))
    (agg0 : musig2_nonce_agg_state Fe)
    (hpub : ∀ i (hi : i < R.length) (j : Nat), j < MUSIG2_NONCE_COUNT →
      pub[i * MUSIG2_NONCE_COUNT + j]? = some (R[i].get j))
    (h1 : 1 ≤ R.length) (h16 : R.length ≤ 16) :
    musig2_nonce_agg B (some pub) R.length (some agg0) =
      some (1, some
        { R_agg :=
            { e0 := B.ge_set_gej ((R.map (fun p => B.gej_set_ge p.e0)).sum)
              e1 := B.ge_set_gej ((R.map (fun p => B.gej_set_ge p.e1)).sum) }
          R_eff := ge_zeroed B
          has_agg := 1
          has_eff := 0 }) := by
  have hn : ¬ (R.length = 0 ∨ R.length > MUSIG2_MAX_SIGNERS) := by
    unfold MUSIG2_MAX_SIGNERS; omega
  have h0 := nonce_agg_inner_eq B hB pub R 0 (fun i hi => hpub i hi 0 (by decide))
    R.length 0 secp256k1_gej_set_infinity (by omega)
  have h1 := nonce_agg_inner_eq B hB pub R 1 (fun i hi => hpub i hi 1 (by decide))
    R.length 0 secp256k1_gej_set_infinity (by omega)
  simp only [List.drop_zero, List.take_length, secp256k1_gej_set_infinity, zero_add,
    nonce_array.get, if_true, one_ne_zero, if_false] at h0 h1
  unfold musig2_nonce_agg
  simp only [if_neg hn]
  have h2 : MUSIG2_NONCE_COUNT = 1 + 1 := rfl
  rw [h2]
  simp only [musig2_nonce_agg_outer, secp256k1_gej_set_infinity, zero_add, h0, h1,
    nonce_array.set, if_true, one_ne_zero, if_false]

/-- The layout `pub_R_all[i * 2 + j] = R_{i,j}` of a list of nonce pairs. -/
theorem nonce_layout_getElem? {α : Type} (f : α → nonce_array (secp256k1_ge Fe)) :
    ∀ (S : List α) (i : Nat) (hi : i < S.length) (j : Nat), j < MUSIG2_NONCE_COUNT →
      (S.flatMap (fun s => [(f s).e0, (f s).e1]))[i * MUSIG2_NONCE_COUNT + j]? =
        some ((f S[i]).get j) := by
  intro S
  induction S with
  | nil => intro i hi; simp at hi
  | cons s S ih =>
    intro i hi j hj
    have hj2 : j = 0 ∨ j = 1 := by unfold MUSIG2_NONCE_COUNT at hj; omega
    cases i with
    | zero =>
      rcases hj2 with rfl | rfl <;> simp [nonce_array.get, MUSIG2_NONCE_COUNT]
    | succ i =>
      have hi' : i < S.length := by simpa using hi
      have := ih i hi' j hj
      have e : (i + 1) * MUSIG2_NONCE_COUNT + j = (i * MUSIG2_NONCE_COUNT + j) + 1 + 1 := by
        unfold MUSIG2_NONCE_COUNT; ring
      rw [List.flatMap_cons, e]
      simpa using this

/-- The copy loop of `musig2_session_init` on a message apart from the session. -/
theorem session_init_loop_eq (msg32 : List Nat) :
    ∀ (k i : Nat) (dst : List Nat), i + k ≤ msg32.length → i + k ≤ dst.length →
      ∃ m, musig2_session_init_loop (msg32_arg.object msg32) k i dst = some m ∧
        ∀ j, m[j]? = if i ≤ j ∧ j < i + k then msg32[j]? else dst[j]? := by
  intro k
  induction k with
  | zero =>
    intro i dst _ _
    refine ⟨dst, by simp [musig2_session_init_loop], fun j => ?_⟩
    have : ¬ (i ≤ j ∧ j < i + 0) := by omega
    rw [if_neg this]
  | succ k ih =>
    intro i dst hm hd
    have hi : i < msg32.length := by omega
    obtain ⟨m, hm1, hm2⟩ := ih (i + 1) (dst.set i msg32[i]) (by omega) (by simp; omega)
    refine ⟨m, ?_, fun j => ?_⟩
    · rw [musig2_session_init_loop]
      simp only [msg32_arg.read, List.getElem?_eq_getElem hi]
      exact hm1
    · rw [hm2 j]
      by_cases h1 : i + 1 ≤ j ∧ j < i + 1 + k
      · have h2 : i ≤ j ∧ j < i + (k + 1) := by omega
        rw [if_pos h1, if_pos h2]
      · rw [if_neg h1]
        by_cases h3 : i = j
        · subst h3
          have h2 : i ≤ i ∧ i < i + (k + 1) := by omega
          rw [if_pos h2, List.getElem?_eq_getElem hi]
          simp [List.getElem?_set]
          omega
        · have h2 : ¬ (i ≤ j ∧ j < i + (k + 1)) := by omega
          rw [if_neg h2]
          simp [List.getElem?_set, h3]

omit [AddCommGroup Pt] in
/-- The outcome of a call of `musig2_session_init` that passes its checks, on a cache and
a message apart from the session. -/
theorem session_init_eq (B : Backend Fe Pt) (session0 : musig2_session Fe)
    (keyagg : musig2_keyagg_cache Fe)
    (msg32 : List Nat) (signer_index : Nat) (hm : msg32.length = 32)
    (hinit : keyagg.is_initialized ≠ 0) (hidx : signer_index < keyagg.n_signers) :
    musig2_session_init B (some session0) (some (keyagg_arg.object keyagg))
        (some (msg32_arg.object msg32)) signer_index =
      some (1, some
        { keyagg := keyagg
          X_tilde := keyagg.X_tilde
          msg32 := msg32
          b := 0
          c := 0
          signer_index := signer_index
          has_b := 0
          has_c := 0
          is_initialized := 1 }) := by
  obtain ⟨m, hm1, hm2⟩ := session_init_loop_eq msg32 32 0 (List.replicate 32 0)
    (by omega) (by simp)
  have hmm : m = msg32 := by
    apply List.ext_getElem?
    intro j
    rw [hm2 j]
    by_cases hj : j < 32
    · simp [hj]
    · have h1 : ¬ (0 ≤ j ∧ j < 0 + 32) := by omega
      rw [if_neg h1, List.getElem?_replicate, if_neg hj]
      exact (List.getElem?_eq_none (by omega)).symm
  subst hmm
  unfold musig2_session_init
  simp only [keyagg_arg.read, if_neg hinit, if_neg (not_le.mpr hidx), ge_iff_le,
    session_zeroed]
  rw [hm1]

omit [AddCommGroup Pt] in
/-- The summation loop of `musig2_partial_sig_agg`, for at least one iteration. -/
theorem partial_sig_agg_loop_eq (B : Backend Fe Pt) (partials : List Nat) :
    ∀ (k i s : Nat), i + (k + 1) ≤ partials.length →
      musig2_partial_sig_agg_loop B partials (k + 1) i s =
        some ((s + ((partials.drop i).take (k + 1)).sum) % B.order) := by
  intro k
  induction k with
  | zero =>
    intro i s h
    have hi : i < partials.length := by omega
    rw [musig2_partial_sig_agg_loop, List.getElem?_eq_getElem hi]
    simp only [musig2_partial_sig_agg_loop, secp256k1_scalar_add]
    rw [List.drop_eq_getElem_cons hi, List.take_succ_cons, List.take_zero, List.sum_cons,
      List.sum_nil, add_zero]
  | succ k ih =>
    intro i s h
    have hi : i < partials.length := by omega
    rw [musig2_partial_sig_agg_loop, List.getElem?_eq_getElem hi]
    simp only
    rw [ih (i + 1) _ (by omega), List.drop_eq_getElem_cons hi, List.take_succ_cons,
      List.sum_cons, secp256k1_scalar_add, ← add_assoc]
    exact congrArg some (((Nat.mod_modEq _ _).add_right _ : Nat.ModEq B.order _ _))

omit [AddCommGroup Pt] in
/-- The outcome of `musig2_partial_sig_agg` on a whole list of admissible length. -/
theorem partial_sig_agg_eq (B : Backend Fe Pt) (partials : List Nat) (out0 : Nat)
    (h1 : 1 ≤ partials.length) (h16 : partials.length ≤ 16) :
    musig2_partial_sig_agg B (some partials) partials.length (some out0) =
      some (1, some (partials.sum % B.order)) := by
  have hn : ¬ (partials.length = 0 ∨ partials.length > MUSIG2_MAX_SIGNERS) := by
    unfold MUSIG2_MAX_SIGNERS; omega
  obtain ⟨k, hk⟩ : ∃ k, partials.length = k + 1 := ⟨partials.length - 1, by omega⟩
  have := partial_sig_agg_loop_eq B partials k 0 secp256k1_scalar_clear (by omega)
  unfold musig2_partial_sig_agg
  simp only [if_neg hn]
  rw [hk, this, ← hk]
  simp [secp256k1_scalar_clear]

omit [AddCommGroup Pt] in
/-- The outcome of a call of `musig2_partial_sign` that passes its checks. -/
theorem partial_sign_eq (B : Backend Fe Pt) (session : musig2_session Fe) (x : Nat)
    (nonce : musig2_nonce_state) (out0 ai : Nat)
    (hinit : session.is_initialized ≠ 0) (hb : session.has_b ≠ 0) (hc : session.has_c ≠ 0)
    (hsec : nonce.has_secret ≠ 0) (hidx : session.signer_index < session.keyagg.n_signers)
    (hai : session.keyagg.a[session.signer_index]? = some ai) :
    musig2_partial_sign B (some session) (some x) (some nonce) (some out0) =
      some (1, some ((session.c * ai * x + nonce.r.e0 + nonce.r.e1 * session.b) % B.order)) := by
  have h1 : ¬ (session.is_initialized = 0 ∨ session.has_b = 0 ∨ session.has_c = 0) := by
    simp [hinit, hb, hc]
  unfold musig2_partial_sign
  simp only [if_neg h1, if_neg hsec, if_neg (not_le.mpr hidx), ge_iff_le, hai,
    secp256k1_scalar_mul, secp256k1_scalar_add, nonce_array.get, if_true, one_ne_zero, if_false]
  have e1 : Nat.ModEq B.order ((nonce.r.e1 * session.b % B.order + nonce.r.e0) % B.order)
      (nonce.r.e1 * session.b + nonce.r.e0) :=
    (Nat.mod_modEq _ _).trans ((Nat.mod_modEq _ _).add_right _)
  have e2 : Nat.ModEq B.order (session.c * ai % B.order * x % B.order) (session.c * ai * x) :=
    (Nat.mod_modEq _ _).trans ((Nat.mod_modEq _ _).mul_right _)
  have e3 : Nat.ModEq B.order
      ((nonce.r.e1 * session.b % B.order + nonce.r.e0) % B.order +
        session.c * ai % B.order * x % B.order)
      (session.c * ai * x + nonce.r.e0 + nonce.r.e1 * session.b) := by
    have := e1.add e2
    rw [show nonce.r.e1 * session.b + nonce.r.e0 + session.c * ai * x =
      session.c * ai * x + nonce.r.e0 + nonce.r.e1 * session.b by ring] at this
    exact this
  exact congrArg (fun v => some ((1 : Int), some v)) e3

omit [AddCommGroup Pt] in
/-- The serialisation of a key list is determined by its normalised x-coordinates. -/
theorem ser_flatMap_of_x (B : Backend Fe Pt) (L : List (secp256k1_ge Fe)) :
    L.flatMap (spec_ser_x B) =
      ((L.map (fun P => B.fe_normalize P.x)).map B.fe_get_b32).flatten := by
  induction L with
  | nil => rfl
  | cons P L ih => simp [List.flatMap_cons, ih, spec_ser_x]

/-- Concatenating 32-byte chunks loses nothing. -/
theorem flatten_chunks_injective :
    ∀ (A A' : List (List Nat)), (∀ a ∈ A, a.length = 32) → (∀ a ∈ A', a.length = 32) →
      A.flatten = A'.flatten → A = A' := by
  intro A
  induction A with
  | nil =>
    intro A' _ h' h
    cases A' with
    | nil => rfl
    | cons a' A' =>
      have h32 := h' a' (by simp)
      have := congrArg List.length h
      rw [List.flatten_cons, List.length_append, h32] at this
      simp only [List.flatten_nil, List.length_nil] at this
      omega
  | cons a A ih =>
    intro A' hA h' h
    cases A' with
    | nil =>
      have h32 := hA a (by simp)
      have := congrArg List.length h
      rw [List.flatten_cons, List.length_append, h32] at this
      simp only [List.flatten_nil, List.length_nil] at this
      omega
    | cons a' A' =>
      have h1 := hA a (by simp)
      have h2 := h' a' (by simp)
      rw [List.flatten_cons, List.flatten_cons] at h
      obtain ⟨e1, e2⟩ := List.append_inj h (by omega)
      rw [e1, ih A' (fun x hx => hA x (by simp [hx])) (fun x hx => h' x (by simp [hx])) e2]

/-- Key lists with different sequences of serialised x-coordinates give different
hash inputs, whatever is appended to them. -/
theorem hash_agg_input_ne (B : Backend Fe Pt) (hB : B.Lawful) (L L' : List (secp256k1_ge Fe))
    (hlen : L.length = L'.length) (hx : L.map (spec_ser_x B) ≠ L'.map (spec_ser_x B))
    (T t t' : List Nat) :
    T ++ (L.flatMap (spec_ser_x B) ++ t) ≠ T ++ (L'.flatMap (spec_ser_x B) ++ t') := by
  intro h
  have h1 := List.append_cancel_left h
  have hl : ∀ M : List (secp256k1_ge Fe), (M.flatMap (spec_ser_x B)).length = 32 * M.length := by
    intro M
    induction M with
    | nil => rfl
    | cons P M ih =>
      rw [List.flatMap_cons, List.length_append, ih, spec_ser_x_length B hB P]
      simp only [List.length_cons]
      ring
  have h2 := (List.append_inj h1 (by rw [hl, hl, hlen])).1
  apply hx
  have e : ∀ M : List (secp256k1_ge Fe),
      M.flatMap (spec_ser_x B) = (M.map (spec_ser_x B)).flatten := by
    intro M
    induction M with
    | nil => rfl
    | cons P M ih => simp [List.flatMap_cons, ih]
  rw [e, e] at h2
  refine flatten_chunks_injective _ _ ?_ ?_ h2
  · intro a ha
    obtain ⟨P, _, rfl⟩ := List.mem_map.mp ha
    exact hB.fe_get_b32_length _
  · intro a ha
    obtain ⟨P, _, rfl⟩ := List.mem_map.mp ha
    exact hB.fe_get_b32_length _

/-- Scalars act on a point of the group through their residue modulo the order. -/
theorem nsmul_mod_order (q : Nat) (G : Pt) (hG : q • G = 0) (k : Nat) :
    (k % q) • G = k • G := by
  conv_rhs => rw [← Nat.div_add_mod k q]
  rw [add_nsmul, mul_nsmul, hG, smul_zero, zero_add]

/-- The sum of the partial signatures, applied to the generator, splits into the
challenge part and the two nonce parts. -/
theorem partial_sum_nsmul {α : Type} (G : Pt) (c b : Nat) (a x r0 r1 : α → Nat) :
    ∀ S : List α,
      (S.map (fun s => c * a s * x s + r0 s + r1 s * b)).sum • G =
        ((S.map (fun s => r0 s • G)).sum + b • (S.map (fun s => r1 s • G)).sum) +
          c • (S.map (fun s => a s • (x s • G))).sum := by
  intro S
  induction S with
  | nil => simp
  | cons s S ih =>
    simp only [List.map_cons, List.sum_cons, add_nsmul, ih, smul_add, mul_nsmul]
    rw [smul_comm (x s) (a s) (c • G), smul_comm (x s) c G, smul_comm (a s) c (x s • G),
      smul_comm b (r1 s) G]
    abel

/-- Reducing every term modulo the order does not change the residue of a sum. -/
theorem sum_map_mod {α : Type} (q : Nat) (f : α → Nat) :
    ∀ S : List α, (S.map (fun s => f s % q)).sum % q = (S.map f).sum % q := by
  intro S
  induction S with
  | nil => rfl
  | cons s S ih =>
    simp only [List.map_cons, List.sum_cons]
    rw [Nat.add_mod, ih, Nat.mod_mod, ← Nat.add_mod]

/-- The outcome of `musig2_nonce_state_init` on non-null arguments. -/
theorem nonce_state_init_eq (st : musig2_nonce_state) (r : nonce_array Nat) :
    musig2_nonce_state_init (some st) (some r) = (1, some { r := r, has_secret := 1 }) := by
  simp [musig2_nonce_state_init, MUSIG2_NONCE_COUNT, List.range_succ, nonce_array.set,
    nonce_array.get]

/-! ## Outcomes of the guards, frames and reachable states -/

omit [AddCommGroup Pt] in
/-- The serialisation loop of `musig2_hash_agg` ends when its reads are inside the array. -/
theorem hash_agg_loop_some (B : Backend Fe Pt) (pubkeys : List (secp256k1_ge Fe)) :
    ∀ (k i : Nat) (sha : secp256k1_sha256), i + k ≤ pubkeys.length →
      ∃ sha', musig2_hash_agg_loop B pubkeys k i sha = some sha' := by
  intro k
  induction k with
  | zero => intro i sha _; exact ⟨sha, rfl⟩
  | succ k ih =>
    intro i sha h
    have hi : i < pubkeys.length := by omega
    rw [musig2_hash_agg_loop, List.getElem?_eq_getElem hi]
    exact ih (i + 1) _ (by omega)

omit [AddCommGroup Pt] in
/-- `musig2_hash_agg` returns when the array holds the keys announced. -/
theorem hash_agg_some (B : Backend Fe Pt) (g : musig2_globals)
    (pubkeys : List (secp256k1_ge Fe)) (n : Nat) (Xi : secp256k1_ge Fe)
    (hn : n ≤ pubkeys.length) :
    ∃ out, musig2_hash_agg B g pubkeys n Xi = some (musig2_init_agg_tagged_hash B g, out) := by
  obtain ⟨sha', h⟩ := hash_agg_loop_some B pubkeys n 0
    (musig2_init_agg_tagged_hash B g).musig2_tagged_hash_agg_init_state (by omega)
  unfold musig2_hash_agg
  simp only [h]
  exact ⟨_, rfl⟩

/-- The accumulation loop of `musig2_keyagg` writes the cells of `a` only. -/
theorem keyagg_loop_frame (B : Backend Fe Pt) (pubkeys : List (secp256k1_ge Fe)) (n : Nat) :
    ∀ (k i : Nat) (g g' : musig2_globals) (cache cache' : musig2_keyagg_cache Fe)
      (Xj Xj' : Pt),
      musig2_keyagg_loop B pubkeys n k i (g, cache, Xj) = some (g', cache', Xj') →
      cache'.X_tilde = cache.X_tilde ∧ cache'.n_signers = cache.n_signers ∧
        cache'.is_initialized = cache.is_initialized ∧ cache'.a.length = cache.a.length := by
  intro k
  induction k with
  | zero =>
    intro i g g' cache cache' Xj Xj' h
    simp only [musig2_keyagg_loop, Option.some.injEq, Prod.mk.injEq] at h
    obtain ⟨_, rfl, _⟩ := h
    exact ⟨rfl, rfl, rfl, rfl⟩
  | succ k ih =>
    intro i g g' cache cache' Xj Xj' h
    rw [musig2_keyagg_loop] at h
    cases hp : pubkeys[i]? with
    | none => simp [hp] at h
    | some Pi =>
      simp only [hp] at h
      cases hh : musig2_hash_agg B g pubkeys n Pi with
      | none => simp [hh] at h
      | some r =>
        obtain ⟨g1, ai⟩ := r
        simp only [hh] at h
        have := ih (i + 1) _ _ _ _ _ _ h
        simpa using this

/-- The accumulation loop of `musig2_keyagg` ends when its reads are inside the array. -/
theorem keyagg_loop_some (B : Backend Fe Pt) (pubkeys : List (secp256k1_ge Fe)) (n : Nat)
    (hn : n ≤ pubkeys.length) :
    ∀ (k i : Nat) (g : musig2_globals) (cache : musig2_keyagg_cache Fe) (Xj : Pt),
      i + k ≤ pubkeys.length →
      ∃ r, musig2_keyagg_loop B pubkeys n k i (g, cache, Xj) = some r := by
  intro k
  induction k with
  | zero => intro i g cache Xj _; exact ⟨_, rfl⟩
  | succ k ih =>
    intro i g cache Xj h
    have hi : i < pubkeys.length := by omega
    obtain ⟨out, ho⟩ := hash_agg_some B g pubkeys n pubkeys[i] hn
    rw [musig2_keyagg_loop, List.getElem?_eq_getElem hi]
    simp only [ho]
    exact ih (i + 1) _ _ _ (by omega)

/-- What a call of `musig2_keyagg` that returns 1 leaves in the cache. -/
theorem keyagg_success_cache (B : Backend Fe Pt) (g g' : musig2_globals)
    (pubkeys : Option (List (secp256k1_ge Fe))) (n : Nat)
    (cache0 : Option (musig2_keyagg_cache Fe)) (X X' : Option (secp256k1_ge Fe))
    (cache : musig2_keyagg_cache Fe)
    (h : musig2_keyagg B g pubkeys n cache0 X = some (g', 1, some cache, X')) :
    cache.n_signers = n ∧ 1 ≤ n ∧ n ≤ 16 ∧ cache.a.length = 16 ∧ cache.is_initialized = 1 := by
  unfold musig2_keyagg at h
  cases pubkeys with
  | none => simp at h
  | some L =>
    cases cache0 with
    | none => simp at h
    | some c0 =>
      simp only at h
      by_cases hc : n = 0 ∨ n > MUSIG2_MAX_SIGNERS
      · simp [if_pos hc] at h
      · rw [if_neg hc] at h
        unfold MUSIG2_MAX_SIGNERS at hc
        cases hl : musig2_keyagg_loop B L n n 0
            (g, { X_tilde := ge_zeroed B, a := List.replicate MUSIG2_MAX_SIGNERS 0,
                  n_signers := n, is_initialized := 0 }, secp256k1_gej_set_infinity) with
        | none => simp [hl] at h
        | some r =>
          obtain ⟨g1, c1, X1⟩ := r
          obtain ⟨_, h2, _, h4⟩ := keyagg_loop_frame B L n n 0 _ _ _ _ _ _ hl
          simp only [hl] at h
          have hcache : cache = { c1 with X_tilde := B.ge_set_gej X1, is_initialized := 1 } := by
            cases X <;> simp at h <;> exact h.2.1.symm
          subst hcache
          simp only [List.length_replicate, MUSIG2_MAX_SIGNERS] at h2 h4
          exact ⟨h2, by omega, by omega, h4, rfl⟩

/-- The outcome of `musig2_keyagg` on non-null arguments: the return value tells whether
the count is admissible, and a rejected call changes nothing. -/
theorem keyagg_outcome (B : Backend Fe Pt) (g : musig2_globals)
    (pubkeys : List (secp256k1_ge Fe)) (n : Nat) (cache0 : musig2_keyagg_cache Fe)
    (X : Option (secp256k1_ge Fe)) (hbuf : n ≤ 16 → n ≤ pubkeys.length) :
    ∃ (g' : musig2_globals) (ret : Int) (cache' : musig2_keyagg_cache Fe)
      (X' : Option (secp256k1_ge Fe)),
      musig2_keyagg B g (some pubkeys) n (some cache0) X = some (g', ret, some cache', X') ∧
      (ret = 1 ↔ (1 ≤ n ∧ n ≤ 16)) ∧
      (ret ≠ 1 → ret = 0 ∧ g' = g ∧ cache' = cache0 ∧ X' = X) := by
  by_cases hc : n = 0 ∨ n > MUSIG2_MAX_SIGNERS
  · refine ⟨g, 0, cache0, X, ?_, ?_, fun _ => ⟨rfl, rfl, rfl, rfl⟩⟩
    · unfold musig2_keyagg
      simp only [if_pos hc]
    · unfold MUSIG2_MAX_SIGNERS at hc
      constructor
      · intro h; exact absurd h (by decide)
      · intro h; omega
  · have hc' := hc
    unfold MUSIG2_MAX_SIGNERS at hc'
    obtain ⟨r, hr⟩ := keyagg_loop_some B pubkeys n (hbuf (by omega)) n 0 g
      { X_tilde := ge_zeroed B, a := List.replicate MUSIG2_MAX_SIGNERS 0,
        n_signers := n, is_initialized := 0 } secp256k1_gej_set_infinity
      (by have := hbuf (by omega); omega)
    obtain ⟨g1, c1, X1⟩ := r
    refine ⟨g1, 1, { c1 with X_tilde := B.ge_set_gej X1, is_initialized := 1 },
      X.map (fun _ => B.ge_set_gej X1), ?_, ?_, fun h => absurd rfl h⟩
    · unfold musig2_keyagg
      simp only [if_neg hc, hr]
      cases X <;> rfl
    · constructor
      · intro _; omega
      · intro _; rfl

omit [AddCommGroup Pt] in
/-- The outcome of `musig2_keyagg_coef` on non-null arguments. -/
theorem keyagg_coef_outcome (B : Backend Fe Pt) (g : musig2_globals)
    (pubkeys : List (secp256k1_ge Fe)) (n index out0 : Nat)
    (hbuf : n ≤ 16 → n ≤ pubkeys.length) :
    ∃ (g' : musig2_globals) (ret : Int) (out' : Nat),
      musig2_keyagg_coef B g (some pubkeys) n index (some out0) = some (g', ret, some out') ∧
      (ret = 1 ↔ (1 ≤ n ∧ n ≤ 16 ∧ index < n)) ∧
      (ret ≠ 1 → ret = 0 ∧ g' = g ∧ out' = out0) := by
  by_cases hc : n = 0 ∨ n > MUSIG2_MAX_SIGNERS
  · refine ⟨g, 0, out0, ?_, ?_, fun _ => ⟨rfl, rfl, rfl⟩⟩
    · unfold musig2_keyagg_coef
      simp only [if_pos hc]
    · unfold MUSIG2_MAX_SIGNERS at hc
      constructor
      · intro h; exact absurd h (by decide)
      · intro h; omega
  · have hc' := hc
    unfold MUSIG2_MAX_SIGNERS at hc'
    by_cases hi : index ≥ n
    · refine ⟨g, 0, out0, ?_, ?_, fun _ => ⟨rfl, rfl, rfl⟩⟩
      · unfold musig2_keyagg_coef
        simp only [if_neg hc, if_pos hi]
      · constructor
        · intro h; exact absurd h (by decide)
        · intro h; omega
    · have hn := hbuf (by omega)
      have hlt : index < pubkeys.length := by omega
      obtain ⟨out, ho⟩ := hash_agg_some B g pubkeys n pubkeys[index] hn
      refine ⟨musig2_init_agg_tagged_hash B g, 1, out, ?_, ?_, fun h => absurd rfl h⟩
      · unfold musig2_keyagg_coef
        simp only [if_neg hc, if_neg hi, List.getElem?_eq_getElem hlt, ho]
      · constructor
        · intro _; omega
        · intro _; rfl


/-- The inner loop of `musig2_nonce_agg` ends when its reads are inside the array. -/
theorem nonce_agg_inner_some (B : Backend Fe Pt) (pub : List (secp256k1_ge Fe)) (j : Nat)
    (hj : j < MUSIG2_NONCE_COUNT) :
    ∀ (k i : Nat) (Rj : Pt), (i + k) * MUSIG2_NONCE_COUNT ≤ pub.length →
      ∃ Rj', musig2_nonce_agg_inner B pub j k i Rj = some Rj' := by
  intro k
  induction k with
  | zero => intro i Rj _; exact ⟨Rj, rfl⟩
  | succ k ih =>
    intro i Rj h
    unfold MUSIG2_NONCE_COUNT at h hj
    have hi : i * MUSIG2_NONCE_COUNT + j < pub.length := by
      unfold MUSIG2_NONCE_COUNT; nlinarith
    rw [musig2_nonce_agg_inner, List.getElem?_eq_getElem hi]
    simp only
    have h' : (i + 1 + k) * MUSIG2_NONCE_COUNT ≤ pub.length := by
      unfold MUSIG2_NONCE_COUNT
      have : i + 1 + k = i + (k + 1) := by omega
      rw [this]; exact h
    split_ifs
    · exact ih (i + 1) _ h'
    · exact ih (i + 1) _ h'

/-- The outer loop of `musig2_nonce_agg` writes the cells of `R_agg` only. -/
theorem nonce_agg_outer_frame (B : Backend Fe Pt) (pub : List (secp256k1_ge Fe)) (n : Nat) :
    ∀ (k j : Nat) (st st' : musig2_nonce_agg_state Fe),
      musig2_nonce_agg_outer B pub n k j st = some st' →
      st'.R_eff = st.R_eff ∧ st'.has_agg = st.has_agg ∧ st'.has_eff = st.has_eff := by
  intro k
  induction k with
  | zero =>
    intro j st st' h
    simp only [musig2_nonce_agg_outer, Option.some.injEq] at h
    subst h
    exact ⟨rfl, rfl, rfl⟩
  | succ k ih =>
    intro j st st' h
    rw [musig2_nonce_agg_outer] at h
    cases hi : musig2_nonce_agg_inner B pub j n 0 secp256k1_gej_set_infinity with
    | none => simp [hi] at h
    | some Rj =>
      simp only [hi] at h
      have := ih (j + 1) _ _ h
      simpa using this

/-- What a call of `musig2_nonce_agg` that returns 1 leaves in the flags. -/
theorem nonce_agg_success_flags (B : Backend Fe Pt)
    (pub : Option (List (secp256k1_ge Fe))) (n : Nat)
    (agg0 : Option (musig2_nonce_agg_state Fe)) (agg : musig2_nonce_agg_state Fe)
    (h : musig2_nonce_agg B pub n agg0 = some (1, some agg)) :
    agg.has_agg = 1 ∧ agg.has_eff = 0 := by
  unfold musig2_nonce_agg at h
  cases pub with
  | none => simp at h
  | some L =>
    cases agg0 with
    | none => simp at h
    | some a0 =>
      simp only at h
      by_cases hc : n = 0 ∨ n > MUSIG2_MAX_SIGNERS
      · simp [if_pos hc] at h
      · rw [if_neg hc] at h
        cases hl : musig2_nonce_agg_outer B L n MUSIG2_NONCE_COUNT 0
            { R_agg := { e0 := ge_zeroed B, e1 := ge_zeroed B }, R_eff := ge_zeroed B,
              has_agg := 0, has_eff := 0 } with
        | none => simp [hl] at h
        | some st =>
          simp only [hl, Option.some.injEq, Prod.mk.injEq, true_and] at h
          subst h
          exact ⟨rfl, rfl⟩

/-- The outcome of `musig2_nonce_agg` on non-null arguments. -/
theorem nonce_agg_outcome (B : Backend Fe Pt) (pub : List (secp256k1_ge Fe)) (n : Nat)
    (agg0 : musig2_nonce_agg_state Fe) (hbuf : n ≤ 16 → 2 * n ≤ pub.length) :
    ∃ (ret : Int) (agg' : musig2_nonce_agg_state Fe),
      musig2_nonce_agg B (some pub) n (some agg0) = some (ret, some agg') ∧
      (ret = 1 ↔ (1 ≤ n ∧ n ≤ 16)) ∧
      (ret ≠ 1 → ret = 0 ∧ agg' = agg0) := by
  by_cases hc : n = 0 ∨ n > MUSIG2_MAX_SIGNERS
  · refine ⟨0, agg0, ?_, ?_, fun _ => ⟨rfl, rfl⟩⟩
    · unfold musig2_nonce_agg
      simp only [if_pos hc]
    · unfold MUSIG2_MAX_SIGNERS at hc
      constructor
      · intro h; exact absurd h (by decide)
      · intro h; omega
  · have hc' := hc
    unfold MUSIG2_MAX_SIGNERS at hc'
    have hlen : (0 + n) * MUSIG2_NONCE_COUNT ≤ pub.length := by
      have := hbuf (by omega)
      unfold MUSIG2_NONCE_COUNT; omega
    obtain ⟨R0, h0⟩ := nonce_agg_inner_some B pub 0 (by decide) n 0
      secp256k1_gej_set_infinity hlen
    obtain ⟨R1, h1⟩ := nonce_agg_inner_some B pub 1 (by decide) n 0
      secp256k1_gej_set_infinity hlen
    refine ⟨1, ⟨⟨B.ge_set_gej R0, B.ge_set_gej R1⟩, ge_zeroed B, 1, 0⟩, ?_, ?_,
      fun h => absurd rfl h⟩
    · unfold musig2_nonce_agg
      simp only [if_neg hc]
      have h2 : MUSIG2_NONCE_COUNT = 1 + 1 := rfl
      rw [h2]
      simp only [musig2_nonce_agg_outer, zero_add, h0, h1, nonce_array.set, if_true,
        one_ne_zero, if_false]
    · constructor
      · intro _; omega
      · intro _; rfl

omit [AddCommGroup Pt] in
/-- The outcome of `musig2_partial_sig_agg` on non-null arguments. -/
theorem partial_sig_agg_outcome (B : Backend Fe Pt) (partials : List Nat) (n out0 : Nat)
    (hbuf : n ≤ 16 → n ≤ partials.length) :
    ∃ (ret : Int) (out' : Nat),
      musig2_partial_sig_agg B (some partials) n (some out0) = some (ret, some out') ∧
      (ret = 1 ↔ (1 ≤ n ∧ n ≤ 16)) ∧
      (ret ≠ 1 → ret = 0 ∧ out' = out0) := by
  by_cases hc : n = 0 ∨ n > MUSIG2_MAX_SIGNERS
  · refine ⟨0, out0, ?_, ?_, fun _ => ⟨rfl, rfl⟩⟩
    · unfold musig2_partial_sig_agg
      simp only [if_pos hc]
    · unfold MUSIG2_MAX_SIGNERS at hc
      constructor
      · intro h; exact absurd h (by decide)
      · intro h; omega
  · have hc' := hc
    unfold MUSIG2_MAX_SIGNERS at hc'
    obtain ⟨k, rfl⟩ : ∃ k, n = k + 1 := ⟨n - 1, by omega⟩
    have := partial_sig_agg_loop_eq B partials k 0 secp256k1_scalar_clear
      (by have := hbuf (by omega); omega)
    refine ⟨1, (secp256k1_scalar_clear + ((partials.drop 0).take (k + 1)).sum) % B.order,
      ?_, ?_, fun h => absurd rfl h⟩
    · unfold musig2_partial_sig_agg
      simp only [if_neg hc, this]
    · constructor
      · intro _; omega
      · intro _; rfl

omit [AddCommGroup Pt] in
/-- A call of `musig2_session_init` on non-null arguments that fails one of its two
checks returns 0 and leaves the session as it was, wherever the arguments point. -/
theorem session_init_reject (B : Backend Fe Pt) (session0 : musig2_session Fe)
    (keyagg : keyagg_arg Fe) (msg32 : msg32_arg) (signer_index : Nat)
    (h : ¬ ((keyagg.read session0).is_initialized ≠ 0 ∧
      signer_index < (keyagg.read session0).n_signers)) :
    musig2_session_init B (some session0) (some keyagg) (some msg32) signer_index =
      some (0, some session0) := by
  unfold musig2_session_init
  simp only
  by_cases h0 : (keyagg.read session0).is_initialized = 0
  · rw [if_pos h0]
  · rw [if_neg h0]
    have : signer_index ≥ (keyagg.read session0).n_signers := by
      by_contra hlt
      exact h ⟨h0, by omega⟩
    rw [if_pos this]

omit [AddCommGroup Pt] in
/-- What a call of `musig2_session_init` that returns 1 leaves in the session, wherever
the arguments point. -/
theorem session_init_success (B : Backend Fe Pt) (session0 : Option (musig2_session Fe))
    (keyagg : Option (keyagg_arg Fe)) (msg32 : Option msg32_arg)
    (signer_index : Nat) (session : musig2_session Fe)
    (h : musig2_session_init B session0 keyagg msg32 signer_index =
      some (1, some session)) :
    session.signer_index = signer_index ∧ session.is_initialized = 1 ∧
      session.has_b = 0 ∧ session.has_c = 0 ∧
      ∀ cache, keyagg = some (keyagg_arg.object cache) →
        cache.is_initialized ≠ 0 ∧ signer_index < cache.n_signers ∧
        session.keyagg = cache ∧ session.X_tilde = cache.X_tilde := by
  unfold musig2_session_init at h
  cases session0 with
  | none => simp at h
  | some s0 =>
    cases keyagg with
    | none => simp at h
    | some karg =>
      cases msg32 with
      | none => simp at h
      | some m =>
        simp only at h
        by_cases h0 : (karg.read s0).is_initialized = 0
        · simp [if_pos h0] at h
        · rw [if_neg h0] at h
          by_cases h1 : signer_index ≥ (karg.read s0).n_signers
          · simp [if_pos h1] at h
          · rw [if_neg h1] at h
            generalize musig2_session_init_loop m 32 0 _ = r at h
            cases r with
            | none => simp at h
            | some mm =>
              simp only [Option.some.injEq, Prod.mk.injEq, true_and] at h
              subst h
              refine ⟨rfl, rfl, rfl, rfl, ?_⟩
              intro cache hc
              simp only [Option.some.injEq] at hc
              subst hc
              exact ⟨h0, by simp only [keyagg_arg.read] at h1; omega, rfl, rfl⟩

/-- A call of `musig2_session_compute_bR_and_c` on non-null arguments that fails one of
its two checks returns 0 and changes nothing. -/
theorem compute_reject (B : Backend Fe Pt) (g : musig2_globals) (session : musig2_session Fe)
    (agg : musig2_nonce_agg_state Fe)
    (h : ¬ (session.is_initialized ≠ 0 ∧ agg.has_agg ≠ 0)) :
    musig2_session_compute_bR_and_c B g (some session) (some agg) =
      (g, 0, some session, some agg) := by
  unfold musig2_session_compute_bR_and_c
  simp only
  by_cases h0 : session.is_initialized = 0
  · rw [if_pos h0]
  · rw [if_neg h0]
    have : agg.has_agg = 0 := by
      by_contra hne
      exact h ⟨h0, hne⟩
    rw [if_pos this]

/-- A call of `musig2_session_compute_bR_and_c` that passes its two checks returns 1,
writes `b`, `c`, `R_eff` and sets the three flags, and nothing else. -/
theorem compute_accept (B : Backend Fe Pt) (g : musig2_globals) (session : musig2_session Fe)
    (agg : musig2_nonce_agg_state Fe)
    (hinit : session.is_initialized ≠ 0) (hagg : agg.has_agg ≠ 0) :
    ∃ (g' : musig2_globals) (b c : Nat) (R : secp256k1_ge Fe),
      musig2_session_compute_bR_and_c B g (some session) (some agg) =
        (g', 1, some { session with b := b, has_b := 1, c := c, has_c := 1 },
          some { agg with R_eff := R, has_eff := 1 }) := by
  unfold musig2_session_compute_bR_and_c
  simp only [if_neg hinit, if_neg hagg]
  exact ⟨_, _, _, _, rfl⟩

omit [AddCommGroup Pt] in
/-- A call of `musig2_partial_sign` on non-null arguments that fails one of its checks
returns 0 and leaves `*s_i_out` as it was. -/
theorem partial_sign_reject (B : Backend Fe Pt) (session : musig2_session Fe) (x : Nat)
    (nonce : musig2_nonce_state) (out0 : Nat)
    (h : ¬ (session.is_initialized ≠ 0 ∧ session.has_b ≠ 0 ∧ session.has_c ≠ 0 ∧
      nonce.has_secret ≠ 0 ∧ session.signer_index < session.keyagg.n_signers)) :
    musig2_partial_sign B (some session) (some x) (some nonce) (some out0) =
      some (0, some out0) := by
  unfold musig2_partial_sign
  simp only
  by_cases h1 : session.is_initialized = 0 ∨ session.has_b = 0 ∨ session.has_c = 0
  · rw [if_pos h1]
  · rw [if_neg h1]
    by_cases h2 : nonce.has_secret = 0
    · rw [if_pos h2]
    · rw [if_neg h2]
      have h3 : session.signer_index ≥ session.keyagg.n_signers := by
        by_contra hlt
        apply h
        refine ⟨fun e => h1 (Or.inl e), fun e => h1 (Or.inr (Or.inl e)),
          fun e => h1 (Or.inr (Or.inr e)), h2, by omega⟩
      rw [if_pos h3]


omit [AddCommGroup Pt] in
/-- The outcome of `musig2_partial_sig_agg` on an array holding at least the `n` scalars
announced: the scalars after the first `n` are not read. -/
theorem partial_sig_agg_prefix (B : Backend Fe Pt) (partials : List Nat) (n out0 : Nat)
    (h1 : 1 ≤ n) (h16 : n ≤ 16) (hn : n ≤ partials.length) :
    musig2_partial_sig_agg B (some partials) n (some out0) =
      some (1, some ((partials.take n).sum % B.order)) := by
  have hc : ¬ (n = 0 ∨ n > MUSIG2_MAX_SIGNERS) := by
    unfold MUSIG2_MAX_SIGNERS; omega
  obtain ⟨k, rfl⟩ : ∃ k, n = k + 1 := ⟨n - 1, by omega⟩
  have := partial_sig_agg_loop_eq B partials k 0 secp256k1_scalar_clear (by omega)
  unfold musig2_partial_sig_agg
  simp only [if_neg hc]
  rw [this]
  simp [secp256k1_scalar_clear]

omit [AddCommGroup Pt] in
/-- A call of `musig2_partial_sig_agg` with an inadmissible count is rejected. -/
theorem partial_sig_agg_reject (B : Backend Fe Pt) (partials : List Nat) (n out0 : Nat)
    (hn : n = 0 ∨ n > 16) :
    musig2_partial_sig_agg B (some partials) n (some out0) = some (0, some out0) := by
  have hc : n = 0 ∨ n > MUSIG2_MAX_SIGNERS := hn
  unfold musig2_partial_sig_agg
  simp only [if_pos hc]

/-- What a call of `musig2_session_compute_bR_and_c` can do to a session: the cache
copy, the aggregated key, the index and `is_initialized` stay, and `has_c` is only set
together with `has_b`. -/
theorem compute_session_frame (B : Backend Fe Pt) (g g' : musig2_globals) (ret : Int)
    (session session' : musig2_session Fe)
    (agg agg' : Option (musig2_nonce_agg_state Fe))
    (h : musig2_session_compute_bR_and_c B g (some session) agg =
      (g', ret, some session', agg')) :
    session'.keyagg = session.keyagg ∧ session'.X_tilde = session.X_tilde ∧
      session'.signer_index = session.signer_index ∧
      session'.is_initialized = session.is_initialized ∧
      ((session.has_c ≠ 0 → session.has_b ≠ 0) →
        (session'.has_c ≠ 0 → session'.has_b ≠ 0)) := by
  cases agg with
  | none =>
    simp only [musig2_session_compute_bR_and_c, Prod.mk.injEq, Option.some.injEq] at h
    obtain ⟨_, _, rfl, _⟩ := h
    exact ⟨rfl, rfl, rfl, rfl, id⟩
  | some a =>
    by_cases hc : session.is_initialized ≠ 0 ∧ a.has_agg ≠ 0
    · obtain ⟨g1, b, c, R, heq⟩ := compute_accept B g session a hc.1 hc.2
      rw [heq] at h
      simp only [Prod.mk.injEq, Option.some.injEq] at h
      obtain ⟨_, _, rfl, _⟩ := h
      exact ⟨rfl, rfl, rfl, rfl, fun _ _ => Int.one_ne_zero⟩
    · rw [compute_reject B g session a hc] at h
      simp only [Prod.mk.injEq, Option.some.injEq] at h
      obtain ⟨_, _, rfl, _⟩ := h
      exact ⟨rfl, rfl, rfl, rfl, id⟩

/-- What a call of `musig2_session_compute_bR_and_c` can do to an aggregation state:
`has_agg` stays, and `has_eff` is only set when `has_agg` is. -/
theorem compute_agg_frame (B : Backend Fe Pt) (g g' : musig2_globals) (ret : Int)
    (session session' : Option (musig2_session Fe))
    (agg agg' : musig2_nonce_agg_state Fe)
    (h : musig2_session_compute_bR_and_c B g session (some agg) =
      (g', ret, session', some agg')) :
    (agg.has_eff ≠ 0 → agg.has_agg ≠ 0) → (agg'.has_eff ≠ 0 → agg'.has_agg ≠ 0) := by
  cases session with
  | none =>
    simp only [musig2_session_compute_bR_and_c, Prod.mk.injEq, Option.some.injEq] at h
    obtain ⟨_, _, _, rfl⟩ := h
    exact id
  | some s =>
    by_cases hc : s.is_initialized ≠ 0 ∧ agg.has_agg ≠ 0
    · obtain ⟨g1, b, c, R, heq⟩ := compute_accept B g s agg hc.1 hc.2
      rw [heq] at h
      simp only [Prod.mk.injEq, Option.some.injEq] at h
      obtain ⟨_, _, _, rfl⟩ := h
      exact fun _ _ => hc.2
    · rw [compute_reject B g s agg hc] at h
      simp only [Prod.mk.injEq, Option.some.injEq] at h
      obtain ⟨_, _, _, rfl⟩ := h
      exact id

/-- A successful `musig2_session_init` on a cache object apart from the session, left by
a successful `musig2_keyagg`, establishes the invariant of sessions, with a cell of `a`
for every signer. -/
theorem session_init_object_invariant (B : Backend Fe Pt) (g g' : musig2_globals)
    (pubkeys : Option (List (secp256k1_ge Fe))) (n : Nat)
    (cache0 : Option (musig2_keyagg_cache Fe)) (X X' : Option (secp256k1_ge Fe))
    (cache : musig2_keyagg_cache Fe) (session0 : Option (musig2_session Fe))
    (msg32 : Option msg32_arg) (signer_index : Nat) (session : musig2_session Fe)
    (hk : musig2_keyagg B g pubkeys n cache0 X = some (g', 1, some cache, X'))
    (hi : musig2_session_init B session0 (some (keyagg_arg.object cache)) msg32
      signer_index = some (1, some session)) :
    session_invariant session ∧ session.keyagg.a.length = MUSIG2_MAX_SIGNERS := by
  obtain ⟨hn, _, h16, hlen, _⟩ := keyagg_success_cache B g g' pubkeys n cache0 X X' cache hk
  obtain ⟨hsi, hinit, hb, hcc, hobj⟩ :=
    session_init_success B session0 _ msg32 signer_index session hi
  obtain ⟨_, hidx, hkey, hX⟩ := hobj cache rfl
  unfold session_invariant MUSIG2_MAX_SIGNERS
  rw [hkey, hsi, hX]
  exact ⟨⟨hinit, hidx, by omega, rfl, fun h => absurd hcc h⟩, hlen⟩

/-- A call of `musig2_session_compute_bR_and_c`, successful or not, keeps the invariant
of sessions and the cells of `a`. -/
theorem compute_keeps_invariant (B : Backend Fe Pt) (g g' : musig2_globals) (ret : Int)
    (session session' : musig2_session Fe)
    (agg agg' : Option (musig2_nonce_agg_state Fe))
    (h : musig2_session_compute_bR_and_c B g (some session) agg =
      (g', ret, some session', agg'))
    (hinv : session_invariant session) :
    session_invariant session' ∧ session'.keyagg.a = session.keyagg.a := by
  obtain ⟨h1, h2, h3, h4, h5⟩ :=
    compute_session_frame B g g' ret session session' agg agg' h
  obtain ⟨i1, i2, i3, i4, i5⟩ := hinv
  unfold session_invariant
  rw [h1, h2, h3, h4]
  exact ⟨⟨i1, i2, i3, i4, h5 i5⟩, rfl⟩

/-- Every reachable aggregation state has `has_eff` only with `has_agg`. -/
theorem nonce_agg_reachable_flags (B : Backend Fe Pt) (a : musig2_nonce_agg_state Fe)
    (ha : nonce_agg_reachable B a) : a.has_eff ≠ 0 → a.has_agg ≠ 0 := by
  induction ha with
  | agg pub n agg0 agg h =>
    intro _
    rw [(nonce_agg_success_flags B pub n agg0 agg h).1]
    decide
  | compute g g' ret session session' agg agg' _ hcomp ih =>
    exact compute_agg_frame B g g' ret session session' agg agg' hcomp ih

omit [AddCommGroup Pt] in
/-- Once both session midstates are memoised, the two initialisers change nothing. -/
theorem session_statics_settled (B : Backend Fe Pt) (g : musig2_globals) :
    musig2_init_nonce_tagged_hash B
        (musig2_init_sig_tagged_hash B (musig2_init_nonce_tagged_hash B g)) =
      musig2_init_sig_tagged_hash B (musig2_init_nonce_tagged_hash B g) ∧
    musig2_init_sig_tagged_hash B
        (musig2_init_sig_tagged_hash B (musig2_init_nonce_tagged_hash B g)) =
      musig2_init_sig_tagged_hash B (musig2_init_nonce_tagged_hash B g) := by
  unfold musig2_init_nonce_tagged_hash musig2_init_sig_tagged_hash musig2_init_tagged_hash
  by_cases h1 : g.musig2_tagged_nonce_inited = 0 <;>
    by_cases h2 : g.musig2_tagged_sig_inited = 0 <;> simp [h1, h2]

omit [AddCommGroup Pt] in
/-- The scalar of `musig2_compute_b` depends on the memoised state, `X_tilde`, `R_agg`
and the message only. -/
theorem compute_b_congr (B : Backend Fe Pt) (g g' : musig2_globals)
    (s s' : musig2_session Fe) (agg agg' : musig2_nonce_agg_state Fe)
    (hst : (musig2_init_nonce_tagged_hash B g).musig2_tagged_hash_nonce_init =
      (musig2_init_nonce_tagged_hash B g').musig2_tagged_hash_nonce_init)
    (hX : s.X_tilde = s'.X_tilde) (hm : s.msg32 = s'.msg32) (hR : agg.R_agg = agg'.R_agg) :
    (musig2_compute_b B g s agg).2 = (musig2_compute_b B g' s' agg').2 := by
  unfold musig2_compute_b
  simp only [hst, hX, hm, hR]

omit [AddCommGroup Pt] in
/-- The scalar of `musig2_compute_c` depends on the memoised state, `R_eff`, `X_tilde`
and the message only. -/
theorem compute_c_congr (B : Backend Fe Pt) (g g' : musig2_globals)
    (s s' : musig2_session Fe) (agg agg' : musig2_nonce_agg_state Fe)
    (hst : (musig2_init_sig_tagged_hash B g).musig2_tagged_hash_sig_init =
      (musig2_init_sig_tagged_hash B g').musig2_tagged_hash_sig_init)
    (hX : s.X_tilde = s'.X_tilde) (hm : s.msg32 = s'.msg32) (hR : agg.R_eff = agg'.R_eff) :
    (musig2_compute_c B g s agg).2 = (musig2_compute_c B g' s' agg').2 := by
  unfold musig2_compute_c
  simp only [hst, hX, hm, hR]

/-- The outcome of a call of `musig2_session_compute_bR_and_c` that passes its checks, in
terms of `musig2_compute_b` and `musig2_compute_c`. -/
theorem compute_accept_eq (B : Backend Fe Pt) (g : musig2_globals)
    (s : musig2_session Fe) (agg : musig2_nonce_agg_state Fe)
    (hinit : s.is_initialized ≠ 0) (hagg : agg.has_agg ≠ 0) :
    musig2_session_compute_bR_and_c B g (some s) (some agg) =
      (musig2_init_sig_tagged_hash B (musig2_init_nonce_tagged_hash B g), 1,
        some { s with
          b := (musig2_compute_b B g s agg).2
          has_b := 1
          c := (musig2_compute_c B (musig2_init_nonce_tagged_hash B g)
            { s with b := (musig2_compute_b B g s agg).2, has_b := 1 }
            { agg with
              R_eff := B.ge_set_gej (B.gej_set_ge agg.R_agg.e0 +
                (musig2_compute_b B g s agg).2 • B.gej_set_ge agg.R_agg.e1)
              has_eff := 1 }).2
          has_c := 1 },
        some { agg with
          R_eff := B.ge_set_gej (B.gej_set_ge agg.R_agg.e0 +
            (musig2_compute_b B g s agg).2 • B.gej_set_ge agg.R_agg.e1)
          has_eff := 1 }) := by
  unfold musig2_session_compute_bR_and_c
  simp only [if_neg hinit, if_neg hagg, secp256k1_gej_set_infinity, secp256k1_gej_add_ge_var,
    secp256k1_ecmult_const, secp256k1_gej_add_var, nonce_array.get, if_true, one_ne_zero,
    if_false, zero_add]
  rfl

/-- A state that already holds what `musig2_session_compute_bR_and_c` computes from it is
left as it is by the call. -/
theorem compute_fixed_point (B : Backend Fe Pt) (g1 : musig2_globals)
    (s1 : musig2_session Fe) (a1 : musig2_nonce_agg_state Fe)
    (hn : musig2_init_nonce_tagged_hash B g1 = g1)
    (hs : musig2_init_sig_tagged_hash B g1 = g1)
    (hinit : s1.is_initialized ≠ 0) (hagg : a1.has_agg ≠ 0)
    (hfb : s1.has_b = 1) (hfc : s1.has_c = 1) (hfe : a1.has_eff = 1)
    (hb : (musig2_compute_b B g1 s1 a1).2 = s1.b)
    (hR : B.ge_set_gej (B.gej_set_ge a1.R_agg.e0 + s1.b • B.gej_set_ge a1.R_agg.e1) =
      a1.R_eff)
    (hc : (musig2_compute_c B g1 s1 a1).2 = s1.c) :
    musig2_session_compute_bR_and_c B g1 (some s1) (some a1) =
      (g1, 1, some s1, some a1) := by
  have e1 : ({ s1 with b := s1.b, has_b := 1 } : musig2_session Fe) = s1 := by
    cases s1
    simp only [musig2_session.mk.injEq, true_and] at hfb ⊢
    simp [hfb]
  have e2 : ({ a1 with R_eff := a1.R_eff, has_eff := 1 } : musig2_nonce_agg_state Fe) = a1 := by
    cases a1
    simp only [musig2_nonce_agg_state.mk.injEq, true_and] at hfe ⊢
    simp [hfe]
  have e3 : ({ s1 with b := s1.b, has_b := 1, c := s1.c, has_c := 1 } : musig2_session Fe) =
      s1 := by
    cases s1
    simp only [musig2_session.mk.injEq, true_and] at hfb hfc ⊢
    simp [hfb, hfc]
  rw [compute_accept_eq B g1 s1 a1 hinit hagg, hn, hs, hb, hR, e1, e2, hc, e3]

/-- A call of `musig2_session_compute_bR_and_c` that does not return 1 changes nothing. -/
theorem compute_failed_unchanged (B : Backend Fe Pt) (g g' : musig2_globals) (ret : Int)
    (session : musig2_session Fe) (session' : Option (musig2_session Fe))
    (agg agg' : Option (musig2_nonce_agg_state Fe))
    (h : musig2_session_compute_bR_and_c B g (some session) agg =
      (g', ret, session', agg'))
    (hret : ret ≠ 1) :
    g' = g ∧ session' = some session ∧ agg' = agg := by
  cases agg with
  | none =>
    simp only [musig2_session_compute_bR_and_c, Prod.mk.injEq] at h
    obtain ⟨rfl, _, rfl, rfl⟩ := h
    exact ⟨rfl, rfl, rfl⟩
  | some a =>
    by_cases hc : session.is_initialized ≠ 0 ∧ a.has_agg ≠ 0
    · obtain ⟨g1, b, c, R, heq⟩ := compute_accept B g session a hc.1 hc.2
      rw [heq] at h
      simp only [Prod.mk.injEq] at h
      exact absurd h.2.1.symm hret
    · rw [compute_reject B g session a hc] at h
      simp only [Prod.mk.injEq] at h
      obtain ⟨rfl, _, rfl, rfl⟩ := h
      exact ⟨rfl, rfl, rfl⟩

end Lemmas

/-! ## The claims -/

section Claims

variable {Fe Pt : Type} [AddCommGroup Pt]

omit [AddCommGroup Pt] in
/-- C2: on a fully bound session (`is_initialized`, `has_b`, `has_c` set,
`signer_index < keyagg.n_signers`) and a nonce state with `has_secret` set,
`musig2_partial_sign` returns 1 and writes `(c * a_i * x + r[0] + r[1] * b) mod order`,
where `a_i` is the cell `keyagg.a[signer_index]` of the session. -/
theorem C2_partial_sign_formula (B : Backend Fe Pt) (session : musig2_session Fe) (x : Nat)
    (nonce : musig2_nonce_state) (out0 a_i : Nat)
    (hinit : session.is_initialized ≠ 0) (hb : session.has_b ≠ 0) (hc : session.has_c ≠ 0)
    (hidx : session.signer_index < session.keyagg.n_signers)
    (hsec : nonce.has_secret ≠ 0)
    (hai : session.keyagg.a[session.signer_index]? = some a_i) :
    musig2_partial_sign B (some session) (some x) (some nonce) (some out0) =
      some (1, some ((session.c * a_i * x + nonce.r.e0 + nonce.r.e1 * session.b) % B.order)) :=
  partial_sign_eq B session x nonce out0 a_i hinit hb hc hsec hidx hai

/-- C4: for a key list of 1 to 16 keys and an index below its length,
`musig2_keyagg_coef` returns 1 and writes the big-endian value, reduced modulo the
group order, of `Hash(Hash(tag) ∥ Hash(tag) ∥ x(L[0]) ∥ … ∥ x(L[n-1]) ∥ x(L[i]))`,
`tag` being the 10 bytes of "MuSig2/agg"; this holds from any reachable statics,
with the midstate memoised before the call or not. -/
theorem C4_keyagg_coef_value (B : Backend Fe Pt) (hB : B.Lawful) (g : musig2_globals)
    (hg : musig2_globals.reachable B g) (L : List (secp256k1_ge Fe)) (i out0 : Nat)
    (h1 : 1 ≤ L.length) (h16 : L.length ≤ 16) (hi : i < L.length) :
    musig2_keyagg_coef B g (some L) L.length i (some out0) =
      some (musig2_init_agg_tagged_hash B g, 1,
        some (be_value
          (B.sha256
            (B.sha256 [77, 117, 83, 105, 103, 50, 47, 97, 103, 103] ++
              B.sha256 [77, 117, 83, 105, 103, 50, 47, 97, 103, 103] ++
              (L.flatMap (fun P => B.fe_get_b32 (B.fe_normalize P.x)) ++
                B.fe_get_b32 (B.fe_normalize L[i].x)))) % B.order)) ∧
    [77, 117, 83, 105, 103, 50, 47, 97, 103, 103] = "MuSig2/agg".toList.map Char.toNat := by
  have hn : ¬ (L.length = 0 ∨ L.length > MUSIG2_MAX_SIGNERS) := by
    unfold MUSIG2_MAX_SIGNERS; omega
  refine ⟨?_, by decide⟩
  unfold musig2_keyagg_coef
  simp only [if_neg hn, if_neg (not_le.mpr hi), ge_iff_le, List.getElem?_eq_getElem hi]
  rw [hash_agg_eq B hB g hg]
  rfl

/-- C5: on an initialised session and an aggregation state with `has_agg` set,
`musig2_session_compute_bR_and_c` returns 1, stores
`b = scalar(H_non(x(X_tilde) ∥ x(R_agg[0]) ∥ x(R_agg[1]) ∥ msg32))` for the tag
"MuSig2/noncecoef", stores `R_eff = R_agg[0] + b * R_agg[1]` and sets `has_eff`. -/
theorem C5_nonce_coefficient_and_R_eff (B : Backend Fe Pt) (hB : B.Lawful)
    (g : musig2_globals) (hg : musig2_globals.reachable B g) (session : musig2_session Fe)
    (agg : musig2_nonce_agg_state Fe) (hinit : session.is_initialized ≠ 0)
    (hagg : agg.has_agg ≠ 0) (hmsg : session.msg32.length = 32) :
    ∃ (g' : musig2_globals) (session' : musig2_session Fe)
      (agg' : musig2_nonce_agg_state Fe),
      musig2_session_compute_bR_and_c B g (some session) (some agg) =
        (g', 1, some session', some agg') ∧
      session'.b = spec_scalar B (spec_tagged_hash B (spec_tag "MuSig2/noncecoef")
        (spec_ser_x B session.X_tilde ++ spec_ser_x B (agg.R_agg.get 0) ++
          spec_ser_x B (agg.R_agg.get 1) ++ session.msg32)) ∧
      session'.has_b = 1 ∧
      agg'.R_eff = B.ge_set_gej
        (B.gej_set_ge (agg.R_agg.get 0) + session'.b • B.gej_set_ge (agg.R_agg.get 1)) ∧
      B.gej_set_ge agg'.R_eff =
        B.gej_set_ge (agg.R_agg.get 0) + session'.b • B.gej_set_ge (agg.R_agg.get 1) ∧
      agg'.has_eff = 1 := by
  refine ⟨_, _, _, compute_bR_and_c_eq B hB g hg session agg hinit hagg, ?_, rfl, ?_, ?_, rfl⟩
  · simp only [nonce_array.get, if_true, one_ne_zero, if_false]
    rw [List.take_of_length_le (by omega)]
  · simp only [nonce_array.get, if_true, one_ne_zero, if_false]
  · simp only [nonce_array.get, if_true, one_ne_zero, if_false, hB.gej_set_ge_set_gej]

/-- C6: on an initialised session and an aggregation state with `has_agg` set,
`musig2_session_compute_bR_and_c` stores
`c = scalar(H_sig(x(R_eff) ∥ x(X_tilde) ∥ msg32))` for the tag "BIP0340/challenge",
where `R_eff` is the effective nonce that this call stores, whatever the state
held in `R_eff` before. -/
theorem C6_challenge (B : Backend Fe Pt) (hB : B.Lawful)
    (g : musig2_globals) (hg : musig2_globals.reachable B g) (session : musig2_session Fe)
    (agg : musig2_nonce_agg_state Fe) (hinit : session.is_initialized ≠ 0)
    (hagg : agg.has_agg ≠ 0) (hmsg : session.msg32.length = 32) :
    ∃ (g' : musig2_globals) (session' : musig2_session Fe)
      (agg' : musig2_nonce_agg_state Fe),
      musig2_session_compute_bR_and_c B g (some session) (some agg) =
        (g', 1, some session', some agg') ∧
      session'.c = spec_scalar B (spec_tagged_hash B (spec_tag "BIP0340/challenge")
        (spec_ser_x B agg'.R_eff ++ spec_ser_x B session.X_tilde ++ session.msg32)) ∧
      session'.has_c = 1 ∧
      ∀ (old : secp256k1_ge Fe),
        musig2_session_compute_bR_and_c B g (some session) (some { agg with R_eff := old }) =
          (g', 1, some session', some agg') := by
  refine ⟨_, _, _, compute_bR_and_c_eq B hB g hg session agg hinit hagg, ?_, rfl, ?_⟩
  · simp only
    rw [List.take_of_length_le (by omega)]
  · intro old
    rw [compute_bR_and_c_eq B hB g hg session { agg with R_eff := old } hinit hagg]

/-- C9, as amended: for key lists of 2 to 16 keys, when a reordering `L'` of `L` has
another sequence of serialised x-coordinates, every coefficient `a[i]` of `L'` is the
scalar of the hash of a byte string different from the one hashed for `a[i]` of `L`;
when the sequence of serialised x-coordinates is the same, `musig2_keyagg` stores
the same coefficients for `L'` as for `L`. -/
theorem C9_order_changes_hash_input (B : Backend Fe Pt) (hB : B.Lawful)
    (g g' : musig2_globals) (hg : musig2_globals.reachable B g)
    (hg' : musig2_globals.reachable B g') (L L' : List (secp256k1_ge Fe))
    (cache0 : musig2_keyagg_cache Fe)
    (h2 : 2 ≤ L.length) (h16 : L.length ≤ 16) (hperm : L.Perm L') :
    ∃ (g1 g1' : musig2_globals) (cache cache' : musig2_keyagg_cache Fe),
      musig2_keyagg B g (some L) L.length (some cache0) none = some (g1, 1, some cache, none) ∧
      musig2_keyagg B g' (some L') L'.length (some cache0) none =
        some (g1', 1, some cache', none) ∧
      (L.map (spec_ser_x B) ≠ L'.map (spec_ser_x B) →
        ∀ i (hi : i < L.length) (hi' : i < L'.length),
          cache.a[i]? = some (spec_scalar B (B.sha256
            (B.sha256 (spec_tag "MuSig2/agg") ++ B.sha256 (spec_tag "MuSig2/agg") ++
              (L.flatMap (spec_ser_x B) ++ spec_ser_x B L[i])))) ∧
          cache'.a[i]? = some (spec_scalar B (B.sha256
            (B.sha256 (spec_tag "MuSig2/agg") ++ B.sha256 (spec_tag "MuSig2/agg") ++
              (L'.flatMap (spec_ser_x B) ++ spec_ser_x B L'[i])))) ∧
          B.sha256 (spec_tag "MuSig2/agg") ++ B.sha256 (spec_tag "MuSig2/agg") ++
              (L.flatMap (spec_ser_x B) ++ spec_ser_x B L[i]) ≠
            B.sha256 (spec_tag "MuSig2/agg") ++ B.sha256 (spec_tag "MuSig2/agg") ++
              (L'.flatMap (spec_ser_x B) ++ spec_ser_x B L'[i])) ∧
      (L.map (spec_ser_x B) = L'.map (spec_ser_x B) → cache'.a = cache.a) := by
  have hlen : L.length = L'.length := hperm.length_eq
  obtain ⟨g1, a, heq, _, _, hget⟩ := keyagg_eq B hB g hg L cache0 none (by omega) h16
  obtain ⟨g1', a', heq', _, _, hget'⟩ :=
    keyagg_eq B hB g' hg' L' cache0 none (by omega) (by omega)
  refine ⟨g1, g1', _, _, heq, heq', ?_, ?_⟩
  · intro hx i hi hi'
    refine ⟨?_, ?_, hash_agg_input_ne B hB L L' hlen hx _ _ _⟩
    · simp only
      rw [hget i, if_pos hi, List.getElem?_eq_getElem hi]
      rfl
    · simp only
      rw [hget' i, if_pos hi', List.getElem?_eq_getElem hi']
      rfl
  · intro hx
    have hflat : L.flatMap (spec_ser_x B) = L'.flatMap (spec_ser_x B) := by
      have e : ∀ M : List (secp256k1_ge Fe),
          M.flatMap (spec_ser_x B) = (M.map (spec_ser_x B)).flatten := by
        intro M
        induction M with
        | nil => rfl
        | cons P M ih => simp [List.flatMap_cons, ih]
      rw [e, e, hx]
    simp only
    apply List.ext_getElem?
    intro j
    rw [hget j, hget' j, ← hlen]
    by_cases hj : j < L.length
    · have hj' : j < L'.length := by omega
      rw [if_pos hj, if_pos hj, List.getElem?_eq_getElem hj, List.getElem?_eq_getElem hj']
      have hxj : spec_ser_x B L[j] = spec_ser_x B L'[j] := by
        have := congrArg (fun l => l[j]?) hx
        simpa [List.getElem?_map, List.getElem?_eq_getElem hj, List.getElem?_eq_getElem hj']
          using this
      simp only [Option.map_some', spec_coefficient, hflat, hxj]
    · rw [if_neg hj, if_neg hj]

/-- C10: hashing is x-only.  Two key lists with the same normalised x-coordinates,
key by key, get the same scalar from `musig2_keyagg_coef` at every index; the scalar
of `musig2_compute_b` is the same for sessions and aggregation states that agree on
the normalised x-coordinates of `X_tilde`, `R_agg[0]`, `R_agg[1]` and on the message,
and the scalar of `musig2_compute_c` is the same when they agree on those of `R_eff`
and `X_tilde` and on the message. -/
theorem C10_hashing_is_x_only (B : Backend Fe Pt) (hB : B.Lawful)
    (g g' : musig2_globals) (hg : musig2_globals.reachable B g)
    (hg' : musig2_globals.reachable B g') :
    (∀ (L L' : List (secp256k1_ge Fe)) (i out0 out0' : Nat),
      1 ≤ L.length → L.length ≤ 16 → i < L.length →
      L.map (fun P => B.fe_normalize P.x) = L'.map (fun P => B.fe_normalize P.x) →
      ∃ (a_i : Nat) (g1 g1' : musig2_globals),
        musig2_keyagg_coef B g (some L) L.length i (some out0) = some (g1, 1, some a_i) ∧
        musig2_keyagg_coef B g' (some L') L'.length i (some out0') =
          some (g1', 1, some a_i)) ∧
    (∀ (s s' : musig2_session Fe) (agg agg' : musig2_nonce_agg_state Fe),
      B.fe_normalize s.X_tilde.x = B.fe_normalize s'.X_tilde.x →
      B.fe_normalize (agg.R_agg.get 0).x = B.fe_normalize (agg'.R_agg.get 0).x →
      B.fe_normalize (agg.R_agg.get 1).x = B.fe_normalize (agg'.R_agg.get 1).x →
      s.msg32 = s'.msg32 →
      (musig2_compute_b B g s agg).2 = (musig2_compute_b B g' s' agg').2) ∧
    (∀ (s s' : musig2_session Fe) (agg agg' : musig2_nonce_agg_state Fe),
      B.fe_normalize agg.R_eff.x = B.fe_normalize agg'.R_eff.x →
      B.fe_normalize s.X_tilde.x = B.fe_normalize s'.X_tilde.x →
      s.msg32 = s'.msg32 →
      (musig2_compute_c B g s agg).2 = (musig2_compute_c B g' s' agg').2) := by
  refine ⟨?_, ?_, ?_⟩
  · intro L L' i out0 out0' h1 h16 hi hx
    have hlen : L.length = L'.length := by
      have := congrArg List.length hx
      simpa using this
    have hi' : i < L'.length := by omega
    have hn : ¬ (L.length = 0 ∨ L.length > MUSIG2_MAX_SIGNERS) := by
      unfold MUSIG2_MAX_SIGNERS; omega
    have hn' : ¬ (L'.length = 0 ∨ L'.length > MUSIG2_MAX_SIGNERS) := by
      unfold MUSIG2_MAX_SIGNERS; omega
    have hxi : B.fe_normalize L[i].x = B.fe_normalize L'[i].x := by
      have := congrArg (fun l => l[i]?) hx
      simpa [List.getElem?_map, List.getElem?_eq_getElem hi, List.getElem?_eq_getElem hi']
        using this
    refine ⟨spec_coefficient B L L[i], musig2_init_agg_tagged_hash B g,
      musig2_init_agg_tagged_hash B g', ?_, ?_⟩
    · unfold musig2_keyagg_coef
      simp only [if_neg hn, if_neg (not_le.mpr hi), ge_iff_le, List.getElem?_eq_getElem hi]
      rw [hash_agg_eq B hB g hg]
    · unfold musig2_keyagg_coef
      simp only [if_neg hn', if_neg (not_le.mpr hi'), ge_iff_le, List.getElem?_eq_getElem hi']
      rw [hash_agg_eq B hB g' hg']
      simp only [spec_coefficient, ser_flatMap_of_x, hx, spec_ser_x, hxi]
  · intro s s' agg agg' hX h0 h1 hm
    simp only [nonce_array.get, if_true, one_ne_zero, if_false] at h0 h1
    rw [compute_b_eq B hB g hg, compute_b_eq B hB g' hg']
    simp only [spec_ser_x, hX, h0, h1, hm]
  · intro s s' agg agg' hR hX hm
    rw [compute_c_eq B hB g hg, compute_c_eq B hB g' hg']
    simp only [spec_ser_x, hX, hR, hm]

/-- C1: end-to-end correctness.  For 1 to 16 signers with secret keys `x_i` and secret
nonce pairs `(r_{i,0}, r_{i,1})`, public keys `X_i = x_i * G` and public nonces
`R_{i,j} = r_{i,j} * G`, and a 32-byte message: `musig2_keyagg`, `musig2_nonce_agg`, and
for every signer `musig2_session_init`, `musig2_session_compute_bR_and_c`,
`musig2_nonce_state_init` and `musig2_partial_sign`, then `musig2_partial_sig_agg` on the
partial signatures, all return 1; every signer's session holds the same challenge `c`
and effective nonce `R_eff`, whether the signer computes them on a fresh copy of the
aggregation state or on one that already holds an effective nonce, and the aggregated
scalar `s` satisfies `s * G = R_eff + c * X_tilde`. -/
theorem C1_end_to_end (B : Backend Fe Pt) (hB : B.Lawful) (G : Pt) (hG : B.order • G = 0)
    (signers : List (Nat × nonce_array Nat)) (m : List Nat) (g : musig2_globals)
    (hg : musig2_globals.reachable B g) (cache0 : musig2_keyagg_cache Fe)
    (agg0 : musig2_nonce_agg_state Fe)
    (h1 : 1 ≤ signers.length) (h16 : signers.length ≤ 16) (hm : m.length = 32) :
    ∃ (g1 : musig2_globals) (cache : musig2_keyagg_cache Fe)
      (agg : musig2_nonce_agg_state Fe) (c : Nat) (R_eff : secp256k1_ge Fe)
      (partials : List Nat) (s : Nat),
      musig2_keyagg B g (some (signers.map (fun sg => B.ge_set_gej (sg.1 • G))))
          signers.length (some cache0) none = some (g1, 1, some cache, none) ∧
      musig2_nonce_agg B
          (some (signers.flatMap
            (fun sg => [B.ge_set_gej (sg.2.e0 • G), B.ge_set_gej (sg.2.e1 • G)])))
          signers.length (some agg0) = some (1, some agg) ∧
      partials.length = signers.length ∧
      (∀ (i : Nat) (hi : i < signers.length) (g2 : musig2_globals),
        musig2_globals.reachable B g2 →
        ∀ (session0 : musig2_session Fe) (nonce0 : musig2_nonce_state) (out0 : Nat)
          (R_old : secp256k1_ge Fe) (eff_old : Int),
        ∃ (session session' : musig2_session Fe) (agg' : musig2_nonce_agg_state Fe)
          (g3 : musig2_globals) (nonce : musig2_nonce_state) (s_i : Nat),
          musig2_session_init B (some session0) (some (keyagg_arg.object cache))
              (some (msg32_arg.object m)) i = some (1, some session) ∧
          musig2_session_compute_bR_and_c B g2 (some session)
              (some { agg with R_eff := R_old, has_eff := eff_old }) =
            (g3, 1, some session', some agg') ∧
          session'.c = c ∧ agg'.R_eff = R_eff ∧
          musig2_nonce_state_init (some nonce0) (some signers[i].2) = (1, some nonce) ∧
          musig2_partial_sign B (some session') (some signers[i].1) (some nonce) (some out0) =
            some (1, some s_i) ∧
          partials[i]? = some s_i) ∧
      (∀ out0 : Nat, musig2_partial_sig_agg B (some partials) signers.length (some out0) =
        some (1, some s)) ∧
      s • G = B.gej_set_ge R_eff + c • B.gej_set_ge cache.X_tilde := by
  -- key aggregation
  have hkl : (signers.map (fun sg => B.ge_set_gej (sg.1 • G))).length = signers.length :=
    List.length_map _ _
  obtain ⟨g1, a', hkey, _, _, hget⟩ :=
    keyagg_eq B hB g hg (signers.map (fun sg => B.ge_set_gej (sg.1 • G))) cache0 none
      (by omega) (by omega)
  rw [hkl] at hkey
  -- nonce aggregation
  have hnonce := nonce_agg_eq B hB
    (signers.flatMap (fun sg => [B.ge_set_gej (sg.2.e0 • G), B.ge_set_gej (sg.2.e1 • G)]))
    (signers.map (fun sg =>
      (⟨B.ge_set_gej (sg.2.e0 • G), B.ge_set_gej (sg.2.e1 • G)⟩ :
        nonce_array (secp256k1_ge Fe)))) agg0
    (by
      intro i hi j hj
      have hi' : i < signers.length := by simpa using hi
      have := nonce_layout_getElem?
        (fun sg : Nat × nonce_array Nat =>
          (⟨B.ge_set_gej (sg.2.e0 • G), B.ge_set_gej (sg.2.e1 • G)⟩ :
            nonce_array (secp256k1_ge Fe))) signers i hi' j hj
      simpa using this)
    (by simpa using h1) (by simpa using h16)
  rw [List.length_map] at hnonce
  simp only [List.map_map, Function.comp_def, hB.gej_set_ge_set_gej] at hnonce
  -- the values shared by all signers
  let keys := signers.map (fun sg => B.ge_set_gej (sg.1 • G))
  let cache : musig2_keyagg_cache Fe :=
    { X_tilde := B.ge_set_gej
        ((keys.map (fun P => spec_coefficient B keys P • B.gej_set_ge P)).sum)
      a := a', n_signers := signers.length, is_initialized := 1 }
  have h10 : (1 : Int) ≠ 0 := by decide
  let agg : musig2_nonce_agg_state Fe :=
    { R_agg := { e0 := B.ge_set_gej ((signers.map (fun sg => sg.2.e0 • G)).sum)
                 e1 := B.ge_set_gej ((signers.map (fun sg => sg.2.e1 • G)).sum) }
      R_eff := ge_zeroed B, has_agg := 1, has_eff := 0 }
  let session : Nat → musig2_session Fe := fun i =>
    { keyagg := cache, X_tilde := cache.X_tilde, msg32 := m, b := 0, c := 0,
      signer_index := i, has_b := 0, has_c := 0, is_initialized := 1 }
  let b : Nat := spec_scalar B (spec_tagged_hash B (spec_tag "MuSig2/noncecoef")
    (spec_ser_x B cache.X_tilde ++ spec_ser_x B agg.R_agg.e0 ++
      spec_ser_x B agg.R_agg.e1 ++ m.take 32))
  let R_eff : secp256k1_ge Fe :=
    B.ge_set_gej (B.gej_set_ge agg.R_agg.e0 + b • B.gej_set_ge agg.R_agg.e1)
  let c : Nat := spec_scalar B (spec_tagged_hash B (spec_tag "BIP0340/challenge")
    (spec_ser_x B R_eff ++ spec_ser_x B cache.X_tilde ++ m.take 32))
  let part : Nat × nonce_array Nat → Nat := fun sg =>
    c * spec_coefficient B keys (B.ge_set_gej (sg.1 • G)) * sg.1 + sg.2.e0 + sg.2.e1 * b
  refine ⟨g1, cache, agg, c, R_eff, signers.map (fun sg => part sg % B.order),
    (signers.map (fun sg => part sg % B.order)).sum % B.order, hkey, hnonce,
    List.length_map _ _, ?_, ?_, ?_⟩
  · intro i hi g2 hg2 session0 nonce0 out0 R_old eff_old
    have hcomp := compute_bR_and_c_eq B hB g2 hg2 (session i)
      { agg with R_eff := R_old, has_eff := eff_old } h10 h10
    refine ⟨session i, _, _, _, _, part signers[i] % B.order,
      session_init_eq B session0 cache m i hm h10 hi,
      hcomp, rfl, rfl, nonce_state_init_eq nonce0 signers[i].2, ?_, ?_⟩
    · refine partial_sign_eq B _ signers[i].1 _ out0
        (spec_coefficient B keys (B.ge_set_gej (signers[i].1 • G)))
        h10 h10 h10 h10 hi ?_
      show a'[i]? = _
      rw [hget i, if_pos (by rw [hkl]; exact hi)]
      simp [List.getElem?_eq_getElem hi, keys]
    · simp [List.getElem?_eq_getElem hi]
  · intro out0
    have := partial_sig_agg_eq B (signers.map (fun sg => part sg % B.order)) out0
      (by simpa using h1) (by simpa using h16)
    rw [List.length_map] at this
    exact this
  · rw [nsmul_mod_order B.order G hG, ← nsmul_mod_order B.order G hG
        ((signers.map (fun sg => part sg % B.order)).sum),
      sum_map_mod, nsmul_mod_order B.order G hG]
    have := partial_sum_nsmul G c b
      (fun sg : Nat × nonce_array Nat => spec_coefficient B keys (B.ge_set_gej (sg.1 • G)))
      (fun sg => sg.1) (fun sg => sg.2.e0) (fun sg => sg.2.e1) signers
    rw [this]
    simp only [R_eff, cache, agg, keys, hB.gej_set_ge_set_gej, List.map_map, Function.comp_def]

/-! ## The claims at concrete inputs -/

theorem C2_partial_sign_formula_witness :
    musig2_partial_sign small_backend (some sample_session) (some 3) (some sample_nonce)
        (some 0) =
      some (1, some ((sample_session.c * 1 * 3 + sample_nonce.r.e0 +
        sample_nonce.r.e1 * sample_session.b) % small_backend.order)) ∧
    (sample_session.c * 1 * 3 + sample_nonce.r.e0 + sample_nonce.r.e1 * sample_session.b) %
      small_backend.order = 0 :=
  ⟨C2_partial_sign_formula small_backend sample_session 3 sample_nonce 0 1
    (by decide) (by decide) (by decide) (by decide) (by decide) (by decide), by decide⟩

theorem C4_keyagg_coef_value_witness :
    musig2_keyagg_coef small_backend musig2_globals_start (some sample_keys)
        sample_keys.length 1 (some 0) =
      some (musig2_init_agg_tagged_hash small_backend musig2_globals_start, 1,
        some (be_value
          (small_backend.sha256
            (small_backend.sha256 [77, 117, 83, 105, 103, 50, 47, 97, 103, 103] ++
              small_backend.sha256 [77, 117, 83, 105, 103, 50, 47, 97, 103, 103] ++
              (sample_keys.flatMap
                  (fun P => small_backend.fe_get_b32 (small_backend.fe_normalize P.x)) ++
                small_backend.fe_get_b32 (small_backend.fe_normalize (affine 10 2).x)))) %
          small_backend.order)) :=
  (C4_keyagg_coef_value small_backend small_backend_lawful musig2_globals_start
    musig2_globals.reachable.start sample_keys 1 0 (by decide) (by decide) (by decide)).1

theorem C5_nonce_coefficient_and_R_eff_witness :
    ∃ (g' : musig2_globals) (session' : musig2_session Nat)
      (agg' : musig2_nonce_agg_state Nat),
      musig2_session_compute_bR_and_c small_backend musig2_globals_start
          (some sample_session) (some sample_agg) = (g', 1, some session', some agg') ∧
      session'.b = spec_scalar small_backend
        (spec_tagged_hash small_backend (spec_tag "MuSig2/noncecoef")
          (spec_ser_x small_backend sample_session.X_tilde ++
            spec_ser_x small_backend (sample_agg.R_agg.get 0) ++
            spec_ser_x small_backend (sample_agg.R_agg.get 1) ++ sample_session.msg32)) ∧
      session'.has_b = 1 ∧
      agg'.R_eff = small_backend.ge_set_gej
        (small_backend.gej_set_ge (sample_agg.R_agg.get 0) +
          session'.b • small_backend.gej_set_ge (sample_agg.R_agg.get 1)) ∧
      small_backend.gej_set_ge agg'.R_eff =
        small_backend.gej_set_ge (sample_agg.R_agg.get 0) +
          session'.b • small_backend.gej_set_ge (sample_agg.R_agg.get 1) ∧
      agg'.has_eff = 1 :=
  C5_nonce_coefficient_and_R_eff small_backend small_backend_lawful musig2_globals_start
    musig2_globals.reachable.start sample_session sample_agg (by decide) (by decide)
    (by decide)

theorem C6_challenge_witness :
    ∃ (g' : musig2_globals) (session' : musig2_session Nat)
      (agg' : musig2_nonce_agg_state Nat),
      musig2_session_compute_bR_and_c small_backend musig2_globals_start
          (some sample_session) (some sample_agg) = (g', 1, some session', some agg') ∧
      session'.c = spec_scalar small_backend
        (spec_tagged_hash small_backend (spec_tag "BIP0340/challenge")
          (spec_ser_x small_backend agg'.R_eff ++
            spec_ser_x small_backend sample_session.X_tilde ++ sample_session.msg32)) ∧
      session'.has_c = 1 ∧
      ∀ (old : secp256k1_ge Nat),
        musig2_session_compute_bR_and_c small_backend musig2_globals_start
            (some sample_session) (some { sample_agg with R_eff := old }) =
          (g', 1, some session', some agg') :=
  C6_challenge small_backend small_backend_lawful musig2_globals_start
    musig2_globals.reachable.start sample_session sample_agg (by decide) (by decide)
    (by decide)

set_option maxRecDepth 100000 in
/-- C9, as stated, fails: the keys `P` and `-P` share their x-coordinate, so the list
`[P, -P]` and its reordering `[-P, P]` get the same coefficients `a[0]` and `a[1]`. -/
theorem C9_counterexample :
    [sample_P, sample_negP] ≠ [sample_negP, sample_P] ∧
    List.Perm [sample_P, sample_negP] [sample_negP, sample_P] ∧
    small_backend.gej_set_ge sample_negP = - small_backend.gej_set_ge sample_P ∧
    (musig2_keyagg small_backend musig2_globals_start (some [sample_P, sample_negP]) 2
        (some sample_cache) none).map (fun r => (r.2.1, r.2.2.1.map (fun c => c.a))) =
      some (1, some [3, 3, 0, 0, 0, 0, 0, 0, 0, 0, 0, 0, 0, 0, 0, 0]) ∧
    (musig2_keyagg small_backend musig2_globals_start (some [sample_negP, sample_P]) 2
        (some sample_cache) none).map (fun r => (r.2.1, r.2.2.1.map (fun c => c.a))) =
      some (1, some [3, 3, 0, 0, 0, 0, 0, 0, 0, 0, 0, 0, 0, 0, 0, 0]) := by
  decide

theorem C9_order_changes_hash_input_witness :
    ∃ (g1 g1' : musig2_globals) (cache cache' : musig2_keyagg_cache Nat),
      musig2_keyagg small_backend musig2_globals_start (some sample_keys) sample_keys.length
          (some sample_cache) none = some (g1, 1, some cache, none) ∧
      musig2_keyagg small_backend musig2_globals_start
          (some [affine 10 2, affine 6 1, affine 12 3])
          [affine 10 2, affine 6 1, affine 12 3].length (some sample_cache) none =
        some (g1', 1, some cache', none) ∧
      (sample_keys.map (spec_ser_x small_backend) ≠
          [affine 10 2, affine 6 1, affine 12 3].map (spec_ser_x small_backend) →
        ∀ i (_ : i < sample_keys.length)
          (hi' : i < [affine 10 2, affine 6 1, affine 12 3].length),
          cache.a[i]? = some (spec_scalar small_backend (small_backend.sha256
            (small_backend.sha256 (spec_tag "MuSig2/agg") ++
              small_backend.sha256 (spec_tag "MuSig2/agg") ++
              (sample_keys.flatMap (spec_ser_x small_backend) ++
                spec_ser_x small_backend sample_keys[i])))) ∧
          cache'.a[i]? = some (spec_scalar small_backend (small_backend.sha256
            (small_backend.sha256 (spec_tag "MuSig2/agg") ++
              small_backend.sha256 (spec_tag "MuSig2/agg") ++
              ([affine 10 2, affine 6 1, affine 12 3].flatMap (spec_ser_x small_backend) ++
                spec_ser_x small_backend [affine 10 2, affine 6 1, affine 12 3][i])))) ∧
          small_backend.sha256 (spec_tag "MuSig2/agg") ++
              small_backend.sha256 (spec_tag "MuSig2/agg") ++
              (sample_keys.flatMap (spec_ser_x small_backend) ++
                spec_ser_x small_backend sample_keys[i]) ≠
            small_backend.sha256 (spec_tag "MuSig2/agg") ++
              small_backend.sha256 (spec_tag "MuSig2/agg") ++
              ([affine 10 2, affine 6 1, affine 12 3].flatMap (spec_ser_x small_backend) ++
                spec_ser_x small_backend [affine 10 2, affine 6 1, affine 12 3][i])) ∧
      (sample_keys.map (spec_ser_x small_backend) =
          [affine 10 2, affine 6 1, affine 12 3].map (spec_ser_x small_backend) →
        cache'.a = cache.a) :=
  C9_order_changes_hash_input small_backend small_backend_lawful musig2_globals_start
    musig2_globals_start musig2_globals.reachable.start musig2_globals.reachable.start
    sample_keys [affine 10 2, affine 6 1, affine 12 3] sample_cache
    (by decide) (by decide) (by decide)

theorem C10_hashing_is_x_only_witness :
    ∃ (a_i : Nat) (g1 g1' : musig2_globals),
      musig2_keyagg_coef small_backend musig2_globals_start (some [sample_P, affine 10 2])
          [sample_P, affine 10 2].length 0 (some 0) = some (g1, 1, some a_i) ∧
      musig2_keyagg_coef small_backend musig2_globals_start
          (some [sample_negP, affine 10 5]) [sample_negP, affine 10 5].length 0 (some 0) =
        some (g1', 1, some a_i) :=
  (C10_hashing_is_x_only small_backend small_backend_lawful musig2_globals_start
    musig2_globals_start musig2_globals.reachable.start musig2_globals.reachable.start).1
    [sample_P, affine 10 2] [sample_negP, affine 10 5] 0 0 0
    (by decide) (by decide) (by decide) (by decide)

theorem C1_end_to_end_witness :
    ∃ (g1 : musig2_globals) (cache : musig2_keyagg_cache Nat)
      (agg : musig2_nonce_agg_state Nat) (c : Nat) (R_eff : secp256k1_ge Nat)
      (partials : List Nat) (s : Nat),
      musig2_keyagg small_backend musig2_globals_start
          (some (sample_signers.map (fun sg => small_backend.ge_set_gej (sg.1 • (1 : ZMod 7)))))
          sample_signers.length (some sample_cache) none = some (g1, 1, some cache, none) ∧
      musig2_nonce_agg small_backend
          (some (sample_signers.flatMap
            (fun sg => [small_backend.ge_set_gej (sg.2.e0 • (1 : ZMod 7)),
              small_backend.ge_set_gej (sg.2.e1 • (1 : ZMod 7))])))
          sample_signers.length (some sample_agg) = some (1, some agg) ∧
      partials.length = sample_signers.length ∧
      (∀ (i : Nat) (hi : i < sample_signers.length) (g2 : musig2_globals),
        musig2_globals.reachable small_backend g2 →
        ∀ (session0 : musig2_session Nat) (nonce0 : musig2_nonce_state) (out0 : Nat)
          (R_old : secp256k1_ge Nat) (eff_old : Int),
        ∃ (session session' : musig2_session Nat) (agg' : musig2_nonce_agg_state Nat)
          (g3 : musig2_globals) (nonce : musig2_nonce_state) (s_i : Nat),
          musig2_session_init small_backend (some session0) (some (keyagg_arg.object cache))
              (some (msg32_arg.object sample_msg)) i = some (1, some session) ∧
          musig2_session_compute_bR_and_c small_backend g2 (some session)
              (some { agg with R_eff := R_old, has_eff := eff_old }) =
            (g3, 1, some session', some agg') ∧
          session'.c = c ∧ agg'.R_eff = R_eff ∧
          musig2_nonce_state_init (some nonce0) (some sample_signers[i].2) =
            (1, some nonce) ∧
          musig2_partial_sign small_backend (some session') (some sample_signers[i].1)
              (some nonce) (some out0) = some (1, some s_i) ∧
          partials[i]? = some s_i) ∧
      (∀ out0 : Nat, musig2_partial_sig_agg small_backend (some partials)
        sample_signers.length (some out0) = some (1, some s)) ∧
      s • (1 : ZMod 7) =
        small_backend.gej_set_ge R_eff + c • small_backend.gej_set_ge cache.X_tilde :=
  C1_end_to_end small_backend small_backend_lawful (1 : ZMod 7) (by decide) sample_signers
    sample_msg musig2_globals_start musig2_globals.reachable.start sample_cache sample_agg
    (by decide) (by decide) (by decide)

/-! ## The claims C11 to C20 -/

omit [AddCommGroup Pt] in
/-- C11: on a list of 1 to 16 partial-signature scalars and on any permutation of it,
`musig2_partial_sig_agg` returns 1 and writes the same scalar, the sum of the scalars
modulo the group order. -/
theorem C11_partial_sig_agg_permutation (B : Backend Fe Pt) (partials partials' : List Nat)
    (out0 out0' : Nat) (h1 : 1 ≤ partials.length) (h16 : partials.length ≤ 16)
    (hperm : partials.Perm partials') :
    musig2_partial_sig_agg B (some partials) partials.length (some out0) =
      some (1, some (partials.sum % B.order)) ∧
    musig2_partial_sig_agg B (some partials') partials'.length (some out0') =
      some (1, some (partials.sum % B.order)) := by
  refine ⟨partial_sig_agg_eq B partials out0 h1 h16, ?_⟩
  rw [partial_sig_agg_eq B partials' out0' (by rw [← hperm.length_eq]; exact h1)
    (by rw [← hperm.length_eq]; exact h16), hperm.sum_eq]

omit [AddCommGroup Pt] in
/-- C16, as amended: `musig2_partial_sig_agg` receives a count and no array length.  With
`n = 0` or `n > 16` it returns 0 and leaves `*s_out` as it was, whatever the array; with
`1 <= n <= 16` and an array holding at least `n` scalars it returns 1 and writes the sum
modulo the group order of the first `n` scalars, also when the array is longer. -/
theorem C16_partial_sig_agg_count_only (B : Backend Fe Pt) (partials : List Nat)
    (n out0 : Nat) :
    ((n = 0 ∨ n > 16) →
      musig2_partial_sig_agg B (some partials) n (some out0) = some (0, some out0)) ∧
    (1 ≤ n → n ≤ 16 → n ≤ partials.length →
      musig2_partial_sig_agg B (some partials) n (some out0) =
        some (1, some ((partials.take n).sum % B.order))) :=
  ⟨partial_sig_agg_reject B partials n out0,
    partial_sig_agg_prefix B partials n out0⟩

/-- C16, as stated, fails: on an array of three scalars with `n = 2` the call returns 1
and writes the sum of the first two. -/
theorem C16_counterexample :
    [1, 2, 3].length ≠ 2 ∧
    musig2_partial_sig_agg small_backend (some [1, 2, 3]) 2 (some 0) = some (1, some 3) := by
  decide

/-- C12: signer-count validation.  On non-null arguments and arrays that hold the
elements announced, `musig2_keyagg`, `musig2_nonce_agg` and `musig2_partial_sig_agg`
return 1 exactly when `1 <= n <= 16`, and `musig2_keyagg_coef` returns 1 exactly when
`1 <= n <= 16` and `index < n`; otherwise they return 0 and leave their outputs, and
the statics, as they were. -/
theorem C12_signer_count_validation (B : Backend Fe Pt) (g : musig2_globals) :
    (∀ (pubkeys : List (secp256k1_ge Fe)) (n : Nat) (cache0 : musig2_keyagg_cache Fe)
      (X : Option (secp256k1_ge Fe)), (n ≤ 16 → n ≤ pubkeys.length) →
      ∃ (g' : musig2_globals) (ret : Int) (cache' : musig2_keyagg_cache Fe)
        (X' : Option (secp256k1_ge Fe)),
        musig2_keyagg B g (some pubkeys) n (some cache0) X =
          some (g', ret, some cache', X') ∧
        (ret = 1 ↔ (1 ≤ n ∧ n ≤ 16)) ∧
        (ret ≠ 1 → ret = 0 ∧ g' = g ∧ cache' = cache0 ∧ X' = X)) ∧
    (∀ (pub_R_all : List (secp256k1_ge Fe)) (n : Nat) (agg0 : musig2_nonce_agg_state Fe),
      (n ≤ 16 → 2 * n ≤ pub_R_all.length) →
      ∃ (ret : Int) (agg' : musig2_nonce_agg_state Fe),
        musig2_nonce_agg B (some pub_R_all) n (some agg0) = some (ret, some agg') ∧
        (ret = 1 ↔ (1 ≤ n ∧ n ≤ 16)) ∧
        (ret ≠ 1 → ret = 0 ∧ agg' = agg0)) ∧
    (∀ (s_partials : List Nat) (n out0 : Nat), (n ≤ 16 → n ≤ s_partials.length) →
      ∃ (ret : Int) (out' : Nat),
        musig2_partial_sig_agg B (some s_partials) n (some out0) = some (ret, some out') ∧
        (ret = 1 ↔ (1 ≤ n ∧ n ≤ 16)) ∧
        (ret ≠ 1 → ret = 0 ∧ out' = out0)) ∧
    (∀ (pubkeys : List (secp256k1_ge Fe)) (n index out0 : Nat),
      (n ≤ 16 → n ≤ pubkeys.length) →
      ∃ (g' : musig2_globals) (ret : Int) (out' : Nat),
        musig2_keyagg_coef B g (some pubkeys) n index (some out0) =
          some (g', ret, some out') ∧
        (ret = 1 ↔ (1 ≤ n ∧ n ≤ 16 ∧ index < n)) ∧
        (ret ≠ 1 → ret = 0 ∧ g' = g ∧ out' = out0)) :=
  ⟨fun pubkeys n cache0 X h => keyagg_outcome B g pubkeys n cache0 X h,
    fun pub n agg0 h => nonce_agg_outcome B pub n agg0 h,
    fun partials n out0 h => partial_sig_agg_outcome B partials n out0 h,
    fun pubkeys n index out0 h => keyagg_coef_outcome B g pubkeys n index out0 h⟩

set_option maxRecDepth 100000 in
/-- C13: `musig2_session_init` clears `*session` before it copies `*keyagg` and `msg32`.
Called for the signer 1 with `keyagg = &session->keyagg` on a session whose member
`keyagg` holds an initialised cache for three signers, it passes both checks and returns
1, and the session it leaves holds a cleared cache (`is_initialized = 0`,
`n_signers = 0`) and a cleared aggregated key in place of a copy.  The same call on a
cache object with the same contents apart from the session leaves the copy; and with
`msg32 = session->msg32` the call leaves 32 zero bytes as the message. -/
theorem C13_session_init_aliased_cache :
    (sample_session.keyagg.is_initialized ≠ 0 ∧ 1 < sample_session.keyagg.n_signers) ∧
    musig2_session_init small_backend (some sample_session) (some keyagg_arg.of_session)
        (some (msg32_arg.object sample_msg)) 1 = some (1, some sample_aliased_session) ∧
    sample_aliased_session.keyagg ≠ sample_session.keyagg ∧
    sample_aliased_session.keyagg.is_initialized = 0 ∧
    sample_aliased_session.keyagg.n_signers = 0 ∧
    sample_aliased_session.X_tilde ≠ sample_session.keyagg.X_tilde ∧
    musig2_session_init small_backend (some sample_session)
        (some (keyagg_arg.object sample_session.keyagg))
        (some (msg32_arg.object sample_msg)) 1 = some (1, some sample_fresh_session) ∧
    sample_fresh_session.keyagg = sample_session.keyagg ∧
    musig2_session_init small_backend (some sample_session)
        (some (keyagg_arg.object sample_session.keyagg)) (some msg32_arg.of_session) 1 =
      some (1, some { sample_fresh_session with msg32 := List.replicate 32 0 }) ∧
    sample_session.msg32 ≠ List.replicate 32 0 := by
  decide

/-- C14: on non-null arguments `musig2_partial_sign` returns 1 and writes a scalar when
the session has `is_initialized`, `has_b` and `has_c` set, the nonce state has
`has_secret` set and `signer_index < keyagg.n_signers` (the cache having a cell of `a`
for each of its `n_signers`); in every other case it returns 0 and leaves `*s_i_out` as
it was, in particular on every session that `musig2_session_init` returned, also after
a call of `musig2_session_compute_bR_and_c` on it that did not return 1. -/
theorem C14_partial_sign_outcome (B : Backend Fe Pt) (session : musig2_session Fe) (x : Nat)
    (nonce : musig2_nonce_state) (out0 : Nat) :
    ((session.is_initialized ≠ 0 ∧ session.has_b ≠ 0 ∧ session.has_c ≠ 0 ∧
        nonce.has_secret ≠ 0 ∧ session.signer_index < session.keyagg.n_signers) →
      session.keyagg.n_signers ≤ session.keyagg.a.length →
      ∃ s_i, musig2_partial_sign B (some session) (some x) (some nonce) (some out0) =
        some (1, some s_i)) ∧
    (¬ (session.is_initialized ≠ 0 ∧ session.has_b ≠ 0 ∧ session.has_c ≠ 0 ∧
        nonce.has_secret ≠ 0 ∧ session.signer_index < session.keyagg.n_signers) →
      musig2_partial_sign B (some session) (some x) (some nonce) (some out0) =
        some (0, some out0)) ∧
    (∀ (session0 : Option (musig2_session Fe)) (cache : Option (keyagg_arg Fe))
      (msg32 : Option msg32_arg) (i : Nat) (fresh : musig2_session Fe),
      musig2_session_init B session0 cache msg32 i = some (1, some fresh) →
      musig2_partial_sign B (some fresh) (some x) (some nonce) (some out0) =
        some (0, some out0) ∧
      ∀ (g g' : musig2_globals) (ret : Int)
        (agg agg' : Option (musig2_nonce_agg_state Fe)) (after : Option (musig2_session Fe)),
        musig2_session_compute_bR_and_c B g (some fresh) agg = (g', ret, after, agg') →
        ret ≠ 1 →
        musig2_partial_sign B after (some x) (some nonce) (some out0) =
          some (0, some out0)) := by
  refine ⟨?_, partial_sign_reject B session x nonce out0, ?_⟩
  · intro h hcells
    have hlt : session.signer_index < session.keyagg.a.length := by omega
    exact ⟨_, partial_sign_eq B session x nonce out0 _ h.1 h.2.1 h.2.2.1 h.2.2.2.1 h.2.2.2.2
      (List.getElem?_eq_getElem hlt)⟩
  · intro session0 cache msg32 i fresh hfresh
    obtain ⟨_, _, hb, _⟩ := session_init_success B session0 cache msg32 i fresh hfresh
    have hrej := partial_sign_reject B fresh x nonce out0 (fun h => h.2.1 hb)
    refine ⟨hrej, ?_⟩
    intro g g' ret agg agg' after hcomp hret
    obtain ⟨_, rfl, _⟩ := compute_failed_unchanged B g g' ret fresh after agg agg' hcomp hret
    exact hrej

/-- C15: on non-null arguments `musig2_session_compute_bR_and_c` returns 1 exactly when
`session.is_initialized` and `agg_state.has_agg` are set; it then leaves `has_b`, `has_c`
and `has_eff` set and the cache copy, `X_tilde`, the message, the signer index,
`is_initialized`, `R_agg` and `has_agg` as they were; otherwise it returns 0 and changes
neither the session nor the aggregation state, nor the statics. -/
theorem C15_compute_outcome (B : Backend Fe Pt) (g : musig2_globals)
    (session : musig2_session Fe) (agg : musig2_nonce_agg_state Fe) :
    (session.is_initialized ≠ 0 ∧ agg.has_agg ≠ 0 →
      ∃ (g' : musig2_globals) (session' : musig2_session Fe)
        (agg' : musig2_nonce_agg_state Fe),
        musig2_session_compute_bR_and_c B g (some session) (some agg) =
          (g', 1, some session', some agg') ∧
        session'.has_b = 1 ∧ session'.has_c = 1 ∧ agg'.has_eff = 1 ∧
        session'.keyagg = session.keyagg ∧ session'.X_tilde = session.X_tilde ∧
        session'.msg32 = session.msg32 ∧ session'.signer_index = session.signer_index ∧
        session'.is_initialized = session.is_initialized ∧
        agg'.R_agg = agg.R_agg ∧ agg'.has_agg = agg.has_agg) ∧
    (¬ (session.is_initialized ≠ 0 ∧ agg.has_agg ≠ 0) →
      musig2_session_compute_bR_and_c B g (some session) (some agg) =
        (g, 0, some session, some agg)) := by
  refine ⟨?_, compute_reject B g session agg⟩
  intro h
  obtain ⟨g', b, c, R, heq⟩ := compute_accept B g session agg h.1 h.2
  exact ⟨g', _, _, heq, rfl, rfl, rfl, rfl, rfl, rfl, rfl, rfl, rfl, rfl⟩

/-- C17: on an initialised session and an aggregation state with `has_agg` set, a second
call of `musig2_session_compute_bR_and_c` on what the first call left returns 1 and
leaves the session, the aggregation state and the statics exactly as the first call
left them. -/
theorem C17_compute_idempotent (B : Backend Fe Pt) (g : musig2_globals)
    (session : musig2_session Fe) (agg : musig2_nonce_agg_state Fe)
    (hinit : session.is_initialized ≠ 0) (hagg : agg.has_agg ≠ 0) :
    ∃ (g1 : musig2_globals) (session1 : musig2_session Fe)
      (agg1 : musig2_nonce_agg_state Fe),
      musig2_session_compute_bR_and_c B g (some session) (some agg) =
        (g1, 1, some session1, some agg1) ∧
      musig2_session_compute_bR_and_c B g1 (some session1) (some agg1) =
        (g1, 1, some session1, some agg1) := by
  obtain ⟨h1, h2⟩ := session_statics_settled B g
  refine ⟨_, _, _, compute_accept_eq B g session agg hinit hagg, ?_⟩
  refine compute_fixed_point B _ _ _ h1 h2 hinit hagg rfl rfl rfl ?_ rfl ?_
  · exact compute_b_congr B _ g _ session _ agg (by rw [h1]; rfl) rfl rfl rfl
  · exact compute_c_congr B _ (musig2_init_nonce_tagged_hash B g) _ _ _ _ (by rw [h2])
      rfl rfl rfl

/-- C20: key cancellation is accepted.  For a key `P` and a key `Q` that denotes `-P` and
has the x-coordinate of `P`, `musig2_keyagg` on `[P, Q]` returns 1, stores equal
coefficients `a[0] = a[1]`, and leaves the point at infinity as `X_tilde` in a cache
with `is_initialized = 1`. -/
theorem C20_key_cancellation (B : Backend Fe Pt) (hB : B.Lawful) (g : musig2_globals)
    (hg : musig2_globals.reachable B g) (P Q : secp256k1_ge Fe)
    (cache0 : musig2_keyagg_cache Fe) (X_tilde_out : Option (secp256k1_ge Fe))
    (hx : B.fe_normalize Q.x = B.fe_normalize P.x)
    (hneg : B.gej_set_ge Q = - B.gej_set_ge P) :
    ∃ (g' : musig2_globals) (cache : musig2_keyagg_cache Fe) (a : Nat),
      musig2_keyagg B g (some [P, Q]) 2 (some cache0) X_tilde_out =
        some (g', 1, some cache, X_tilde_out.map (fun _ => cache.X_tilde)) ∧
      cache.a[0]? = some a ∧ cache.a[1]? = some a ∧
      secp256k1_ge_is_infinity cache.X_tilde ≠ 0 ∧
      B.gej_set_ge cache.X_tilde = 0 ∧
      cache.is_initialized = 1 ∧ cache.n_signers = 2 := by
  obtain ⟨g', a', heq, _, _, hget⟩ :=
    keyagg_eq B hB g hg [P, Q] cache0 X_tilde_out (by simp) (by simp)
  have hser : spec_ser_x B Q = spec_ser_x B P := by
    unfold spec_ser_x
    rw [hx]
  have hcoef : spec_coefficient B [P, Q] Q = spec_coefficient B [P, Q] P := by
    unfold spec_coefficient
    rw [hser]
  have hsum : ([P, Q].map (fun K => spec_coefficient B [P, Q] K • B.gej_set_ge K)).sum = 0 := by
    simp only [List.map_cons, List.map_nil, List.sum_cons, List.sum_nil, add_zero, hcoef, hneg,
      smul_neg, add_neg_cancel]
  rw [hsum] at heq
  refine ⟨g', _, spec_coefficient B [P, Q] P, heq, ?_, ?_, ?_, ?_, rfl, rfl⟩
  · have := hget 0
    simpa using this
  · have := hget 1
    simpa [hcoef] using this
  · exact (hB.ge_set_gej_infinity 0).mpr rfl
  · exact hB.gej_set_ge_set_gej 0

set_option maxRecDepth 100000 in
/-- C19: the session that `musig2_session_init` leaves when `musig2_keyagg` has written
the cache into the member `keyagg` of the session and `keyagg = &session->keyagg` is
passed, is reachable and breaks the invariant: its index 1 is not below its
`n_signers = 0`.  After a successful `musig2_session_compute_bR_and_c` on it with an
aggregation state left by `musig2_nonce_agg`, the session is still reachable, every flag
that `musig2_partial_sign` asks for is set, and the index check of `musig2_partial_sign`
fires: the call returns 0 and leaves `*s_i_out` as it was. -/
theorem C19_aliased_init_breaks_invariant :
    musig2_keyagg small_backend musig2_globals_start (some sample_keys) 3
        (some sample_cache) none =
      some (musig2_init_agg_tagged_hash small_backend musig2_globals_start, 1,
        some sample_session.keyagg, none) ∧
    musig2_session_init small_backend (some sample_session) (some keyagg_arg.of_session)
        (some (msg32_arg.object sample_msg)) 1 = some (1, some sample_aliased_session) ∧
    session_reachable small_backend sample_aliased_session ∧
    ¬ session_invariant sample_aliased_session ∧
    sample_aliased_session.signer_index ≥ sample_aliased_session.keyagg.n_signers ∧
    nonce_agg_reachable small_backend sample_agg ∧
    ∃ (g' : musig2_globals) (bound : musig2_session Nat)
      (agg' : musig2_nonce_agg_state Nat),
      musig2_session_compute_bR_and_c small_backend musig2_globals_start
          (some sample_aliased_session) (some sample_agg) =
        (g', 1, some bound, some agg') ∧
      session_reachable small_backend bound ∧
      ¬ session_invariant bound ∧
      (bound.is_initialized ≠ 0 ∧ bound.has_b ≠ 0 ∧ bound.has_c ≠ 0 ∧
        sample_nonce.has_secret ≠ 0) ∧
      bound.signer_index ≥ bound.keyagg.n_signers ∧
      musig2_partial_sign small_backend (some bound) (some 3) (some sample_nonce)
          (some 8) = some (0, some 8) := by
  have hk : musig2_keyagg small_backend musig2_globals_start (some sample_keys) 3
        (some sample_cache) none =
      some (musig2_init_agg_tagged_hash small_backend musig2_globals_start, 1,
        some sample_session.keyagg, none) := by decide
  have hi : musig2_session_init small_backend (some sample_session)
        (some keyagg_arg.of_session) (some (msg32_arg.object sample_msg)) 1 =
      some (1, some sample_aliased_session) := by decide
  have hr : session_reachable small_backend sample_aliased_session :=
    session_reachable.init musig2_globals_start _ (some sample_keys) 3 (some sample_cache)
      none none sample_session.keyagg sample_session keyagg_arg.of_session
      (some (msg32_arg.object sample_msg)) 1 sample_aliased_session hk rfl hi
  have ha : nonce_agg_reachable small_backend sample_agg :=
    nonce_agg_reachable.agg (some [affine 6 1, affine 10 2]) 1 (some sample_agg) sample_agg
      (by decide)
  obtain ⟨g', b, c, R, hc⟩ := compute_accept small_backend musig2_globals_start
    sample_aliased_session sample_agg (by decide) (by decide)
  refine ⟨hk, hi, hr, fun h => absurd h.2.1 (by decide), by decide, ha, g', _, _, hc,
    session_reachable.compute _ _ _ _ _ _ _ hr ?_ hc, ?_, ?_, ?_, ?_⟩
  · intro a h
    cases h
    exact ha
  · intro h
    exact absurd h.2.1 (Nat.not_lt.mpr (Nat.zero_le 1))
  · exact ⟨Int.one_ne_zero, Int.one_ne_zero, Int.one_ne_zero, by decide⟩
  · exact Nat.zero_le 1
  · exact partial_sign_reject small_backend _ 3 sample_nonce 8
      (fun h => absurd h.2.2.2.2 (Nat.not_lt.mpr (Nat.zero_le 1)))

/-! ## The claims C11 to C20 at concrete inputs -/

theorem C11_partial_sig_agg_permutation_witness :
    musig2_partial_sig_agg small_backend (some [3, 5, 6]) [3, 5, 6].length (some 0) =
      some (1, some ([3, 5, 6].sum % small_backend.order)) ∧
    musig2_partial_sig_agg small_backend (some [6, 3, 5]) [6, 3, 5].length (some 9) =
      some (1, some ([3, 5, 6].sum % small_backend.order)) :=
  C11_partial_sig_agg_permutation small_backend [3, 5, 6] [6, 3, 5] 0 9
    (by decide) (by decide) (by decide)

theorem C12_signer_count_validation_witness :
    (∃ (g' : musig2_globals) (ret : Int) (cache' : musig2_keyagg_cache Nat)
      (X' : Option (secp256k1_ge Nat)),
      musig2_keyagg small_backend musig2_globals_start (some sample_keys) 17
          (some sample_cache) none = some (g', ret, some cache', X') ∧
      (ret = 1 ↔ (1 ≤ 17 ∧ 17 ≤ 16)) ∧
      (ret ≠ 1 → ret = 0 ∧ g' = musig2_globals_start ∧ cache' = sample_cache ∧ X' = none)) ∧
    musig2_keyagg small_backend musig2_globals_start (some sample_keys) 17
        (some sample_cache) none = some (musig2_globals_start, 0, some sample_cache, none) ∧
    musig2_keyagg small_backend musig2_globals_start (some sample_keys) 0
        (some sample_cache) none = some (musig2_globals_start, 0, some sample_cache, none) :=
  ⟨(C12_signer_count_validation small_backend musig2_globals_start).1 sample_keys 17
    sample_cache none (by decide), by decide, by decide⟩

theorem C14_partial_sign_outcome_witness :
    musig2_partial_sign small_backend (some sample_fresh_session) (some 3)
        (some sample_nonce) (some 8) = some (0, some 8) ∧
    ∃ s_i, musig2_partial_sign small_backend (some sample_session) (some 3)
        (some sample_nonce) (some 8) = some (1, some s_i) :=
  ⟨(C14_partial_sign_outcome small_backend sample_fresh_session 3 sample_nonce 8).2.1
      (by decide),
    (C14_partial_sign_outcome small_backend sample_session 3 sample_nonce 8).1
      (by decide) (by decide)⟩

theorem C15_compute_outcome_witness :
    musig2_session_compute_bR_and_c small_backend musig2_globals_start
        (some sample_session) (some { sample_agg with has_agg := 0 }) =
      (musig2_globals_start, 0, some sample_session, some { sample_agg with has_agg := 0 }) ∧
    ∃ (g' : musig2_globals) (session' : musig2_session Nat)
      (agg' : musig2_nonce_agg_state Nat),
      musig2_session_compute_bR_and_c small_backend musig2_globals_start
          (some sample_fresh_session) (some sample_agg) =
        (g', 1, some session', some agg') ∧
      session'.has_b = 1 ∧ session'.has_c = 1 ∧ agg'.has_eff = 1 ∧
      session'.keyagg = sample_fresh_session.keyagg ∧
      session'.X_tilde = sample_fresh_session.X_tilde ∧
      session'.msg32 = sample_fresh_session.msg32 ∧
      session'.signer_index = sample_fresh_session.signer_index ∧
      session'.is_initialized = sample_fresh_session.is_initialized ∧
      agg'.R_agg = sample_agg.R_agg ∧ agg'.has_agg = sample_agg.has_agg :=
  ⟨(C15_compute_outcome small_backend musig2_globals_start sample_session
      { sample_agg with has_agg := 0 }).2 (by decide),
    (C15_compute_outcome small_backend musig2_globals_start sample_fresh_session
      sample_agg).1 (by decide)⟩

theorem C16_partial_sig_agg_count_only_witness :
    musig2_partial_sig_agg small_backend (some [1, 2, 3]) 17 (some 4) = some (0, some 4) ∧
    musig2_partial_sig_agg small_backend (some [1, 2, 3]) 2 (some 4) =
      some (1, some (([1, 2, 3].take 2).sum % small_backend.order)) :=
  ⟨(C16_partial_sig_agg_count_only small_backend [1, 2, 3] 17 4).1 (by decide),
    (C16_partial_sig_agg_count_only small_backend [1, 2, 3] 2 4).2
      (by decide) (by decide) (by decide)⟩

theorem C17_compute_idempotent_witness :
    ∃ (g1 : musig2_globals) (session1 : musig2_session Nat)
      (agg1 : musig2_nonce_agg_state Nat),
      musig2_session_compute_bR_and_c small_backend musig2_globals_start
          (some sample_fresh_session) (some sample_agg) =
        (g1, 1, some session1, some agg1) ∧
      musig2_session_compute_bR_and_c small_backend g1 (some session1) (some agg1) =
        (g1, 1, some session1, some agg1) :=
  C17_compute_idempotent small_backend musig2_globals_start sample_fresh_session sample_agg
    (by decide) (by decide)

theorem C20_key_cancellation_witness :
    ∃ (g' : musig2_globals) (cache : musig2_keyagg_cache Nat) (a : Nat),
      musig2_keyagg small_backend musig2_globals_start (some [sample_P, sample_negP]) 2
          (some sample_cache) none =
        some (g', 1, some cache, (none : Option (secp256k1_ge Nat)).map
          (fun _ => cache.X_tilde)) ∧
      cache.a[0]? = some a ∧ cache.a[1]? = some a ∧
      secp256k1_ge_is_infinity cache.X_tilde ≠ 0 ∧
      small_backend.gej_set_ge cache.X_tilde = 0 ∧
      cache.is_initialized = 1 ∧ cache.n_signers = 2 :=
  C20_key_cancellation small_backend small_backend_lawful musig2_globals_start
    musig2_globals.reachable.start sample_P sample_negP sample_cache none
    (by decide) (by decide)

end Claims

end MuSig2
